import Mathlib

/-!
Verification of the two integer-sequence codecs of the `varint_test` crate:
the SimpleUnary variable-byte codec (`varint_su.rs`) and the GroupBinary
4-per-group codec with descriptor bytes and a shuffle table (`varint_gb.rs`).

Bytes are modelled as `Nat` values below 256, byte buffers as `List Nat`,
and `u32` arithmetic that can wrap in the source (the delta subtractions on
encode, the prefix-sum additions on decode) carries an explicit `% 2 ^ 32`.
The `usize` decode accumulators of the SimpleUnary iterator are modelled as
plain `Nat`: with at most five bytes per integer they stay far below `2 ^ 64`
on every run reachable from a factory-produced buffer.
-/

set_option maxHeartbeats 2000000
set_option maxRecDepth 4096

namespace SU

/-- Mirrors `VarintSUFactory { vec, top, len }` from `varint_su.rs`. -/
structure VarintSUFactory where
  vec : List Nat
  top : Nat
  len : Nat
deriving DecidableEq, Repr

/-- Mirrors `VarintSUFactory::new`. -/
def VarintSUFactory.new : VarintSUFactory := ⟨[], 0, 0⟩

/-- The continuation-byte loop of `VarintSUFactory::push_int`: at most `fuel`
times (the source fixes `fuel = 4`), while `x ≥ 128` emit `128 + x % 128` and
set `x := x / 128 - 1`.  Returns the emitted bytes and the remaining `x`. -/
def pushLoop : Nat → Nat → List Nat × Nat
  | 0, x => ([], x)
  | fuel + 1, x =>
    if x < 128 then ([], x)
    else
      let r := pushLoop fuel (x / 128 - 1)
      ((128 + x % 128) :: r.1, r.2)

/-- The bytes `push_int` appends for one delta: the continuation bytes of
`pushLoop 4`, then the final `self.vec.push(x as u8)` (`u8` cast is `% 256`). -/
def encBytes (delta : Nat) : List Nat :=
  (pushLoop 4 delta).1 ++ [(pushLoop 4 delta).2 % 256]

/-- Mirrors `VarintSUFactory::push_int`.  The source computes
`int - self.top - 1` in `u32`; the wrapping subtraction is modelled as
`(int + 2 ^ 32 - (top + 1)) % 2 ^ 32`. -/
def push_int (f : VarintSUFactory) (int : Nat) : VarintSUFactory :=
  if int = f.top then f
  else
    { vec := f.vec ++ encBytes ((int + 2 ^ 32 - (f.top + 1)) % 2 ^ 32)
      top := int
      len := f.len + 1 }

/-- Mirrors `VarintSUFactory::push_if_not_on_top`. -/
def push_if_not_on_top (f : VarintSUFactory) (int : Nat) : VarintSUFactory :=
  if int ≠ f.top then push_int f int else f

/-- Mirrors the sealed `VarintSU { bytes, len }`. -/
structure VarintSU where
  bytes : List Nat
  len : Nat
deriving DecidableEq, Repr

/-- Mirrors `VarintSUFactory::into_varint_su`: the buffer is moved out
(`mem::replace(&mut self.vec, Vec::new())`) and the factory keeps its `top`
and `len` fields. -/
def into_varint_su (f : VarintSUFactory) : VarintSU × VarintSUFactory :=
  (⟨f.vec, f.len⟩, { f with vec := [] })

/-- Mirrors `VarintSU::len`. -/
def VarintSU.length (v : VarintSU) : Nat := v.len

/-- State of `varint_su::Iter`: the byte slice is passed separately. -/
structure IterState where
  next_index : Nat
  last_value : Nat
deriving DecidableEq, Repr

/-- The continuation loop of `varint_su::Iter::next`: at most `fuel = 4`
times, stop if the current byte is below 128, otherwise accumulate
`x += (b - 127) * p`, `p *= 128` and read the next byte.  The inner read
`self.int_vec[self.next_index]` is unchecked in the source (it panics when out
of range), modelled by returning `none`. -/
def decLoop (bytes : List Nat) : Nat → Nat → Nat → Nat → Nat → Option (Nat × Nat × Nat × Nat)
  | 0, b, i, x, p => some (b, i, x, p)
  | fuel + 1, b, i, x, p =>
    if b < 128 then some (b, i, x, p)
    else
      match bytes[i + 1]? with
      | none => none
      | some b2 => decLoop bytes fuel b2 (i + 1) (x + (b - 127) * p) (p * 128)

/-- Mirrors `varint_su::Iter::next`.  `some none` is iterator exhaustion,
`none` is the (unreachable on factory buffers) out-of-range panic. -/
def suNext (bytes : List Nat) (s : IterState) : Option (Option (Nat × IterState)) :=
  if bytes.length ≤ s.next_index then some none
  else
    match bytes[s.next_index]? with
    | none => none
    | some b =>
      match decLoop bytes 4 b s.next_index 0 1 with
      | none => none
      | some (b, i, x, p) =>
        let v := x + (b + 1) * p + s.last_value
        some (some (v, ⟨i + 1, v⟩))

/-- Runs the iterator to exhaustion, collecting the decoded values.
`none` means either a panic inside `suNext` or insufficient fuel. -/
def suIterAll (bytes : List Nat) : Nat → IterState → Option (List Nat)
  | 0, _ => none
  | fuel + 1, s =>
    match suNext bytes s with
    | none => none
    | some none => some []
    | some (some (v, s2)) => (suIterAll bytes fuel s2).map (v :: ·)

/-- Full decode of a sealed SimpleUnary sequence: iterate from the start of
the buffer with `last_value = 0`, as `VarintSU::iter` does. -/
def suDecode (v : VarintSU) : Option (List Nat) :=
  suIterAll v.bytes (v.bytes.length + 1) ⟨0, 0⟩

/-- Pushes a list of values in order through `push_int`. -/
def pushList (f : VarintSUFactory) : List Nat → VarintSUFactory
  | [] => f
  | v :: vs => pushList (push_int f v) vs

end SU

/-- Strictly increasing chain starting strictly above `t`. -/
def chainLt : Nat → List Nat → Bool
  | _, [] => true
  | t, v :: vs => decide (t < v) && chainLt v vs

/-- Every element fits in a `u32`. -/
def allLt32 (vs : List Nat) : Bool := vs.all (fun v => decide (v < 2 ^ 32))

/-- Strictly increasing, with no constraint on the first element. -/
def sortedLt : List Nat → Bool
  | [] => true
  | [_] => true
  | a :: b :: vs => decide (a < b) && sortedLt (b :: vs)

/-- Last element of a list, with a default for the empty list. -/
def lastD (d : Nat) : List Nat → Nat
  | [] => d
  | v :: vs => lastD v vs

theorem getElem?_append_mid {α : Type} (pre mid suf : List α) (k : Nat) (hk : k < mid.length) :
    (pre ++ mid ++ suf)[pre.length + k]? = mid[k]? := by
  rw [List.append_assoc]
  rw [List.getElem?_append_right (by omega)]
  rw [Nat.add_sub_cancel_left]
  rw [List.getElem?_append]
  rw [if_pos hk]

theorem getD_append_mid {α : Type} [Inhabited α] (pre mid suf : List α) (k : Nat) (d : α)
    (hk : k < mid.length) : (pre ++ mid ++ suf).getD (pre.length + k) d = mid.getD k d := by
  simp only [List.getD_eq_getElem?_getD]
  rw [getElem?_append_mid pre mid suf k hk]

theorem getD_cons_mid {α : Type} [Inhabited α] (pre rest : List α) (b d : α) :
    (pre ++ b :: rest).getD pre.length d = b := by
  have h := getD_append_mid pre [b] rest 0 d (by simp)
  simpa using h

theorem set_cons_mid {α : Type} (pre rest : List α) (b c : α) :
    (pre ++ b :: rest).set pre.length c = pre ++ c :: rest := by
  induction pre with
  | nil => simp
  | cons a pre ih => simp [List.set, ih]

namespace SU

/-- Value a run of continuation bytes contributes in the decoder, before the
final byte: `(b0 - 127) + 128 * ((b1 - 127) + 128 * ...)`. -/
def cValC : List Nat → Nat
  | [] => 0
  | b :: bs => (b - 127) + 128 * cValC bs

/-- Deltas below `bnd fuel` are fully reduced below 128 by `pushLoop fuel`. -/
def bnd : Nat → Nat
  | 0 => 128
  | n + 1 => 128 * bnd n + 128

theorem le_bnd4 : 2 ^ 32 ≤ bnd 4 := by decide

theorem pushLoop_spec : ∀ fuel x, x < bnd fuel →
    (pushLoop fuel x).2 < 128 ∧
    (pushLoop fuel x).1.length ≤ fuel ∧
    (∀ b ∈ (pushLoop fuel x).1, 128 ≤ b ∧ b < 256) ∧
    cValC (pushLoop fuel x).1 + ((pushLoop fuel x).2 + 1) * 128 ^ (pushLoop fuel x).1.length
      = x + 1 := by
  intro fuel
  induction fuel with
  | zero =>
    intro x hx
    simp only [bnd] at hx
    simp [pushLoop, cValC, hx]
  | succ n ih =>
    intro x hx
    by_cases h : x < 128
    · simp [pushLoop, h, cValC]
    · have hx2 : x / 128 - 1 < bnd n := by
        simp only [bnd] at hx
        omega
      obtain ⟨h1, h2, h3, h4⟩ := ih (x / 128 - 1) hx2
      simp only [pushLoop, if_neg h]
      refine ⟨h1, by simpa using Nat.succ_le_succ h2, ?_, ?_⟩
      · intro b hb
        rcases List.mem_cons.mp hb with hb | hb
        · omega
        · exact h3 b hb
      · simp only [cValC, List.length_cons, pow_succ]
        have hc : 128 + x % 128 - 127 = x % 128 + 1 := by omega
        rw [hc]
        have hassoc :
            ((pushLoop n (x / 128 - 1)).2 + 1) * (128 ^ (pushLoop n (x / 128 - 1)).1.length * 128)
              = ((pushLoop n (x / 128 - 1)).2 + 1) * 128 ^ (pushLoop n (x / 128 - 1)).1.length
                * 128 := by ring
        rw [hassoc]
        generalize hA : cValC (pushLoop n (x / 128 - 1)).1 = A at h4
        generalize hB : ((pushLoop n (x / 128 - 1)).2 + 1)
            * 128 ^ (pushLoop n (x / 128 - 1)).1.length = B at h4
        omega

theorem decLoop_spec : ∀ (cbs : List Nat) (fuel : Nat) (bytes : List Nat) (r i x p : Nat),
    cbs.length ≤ fuel →
    (∀ k, k < cbs.length + 1 → bytes[i + k]? = (cbs ++ [r])[k]?) →
    (∀ c ∈ cbs, 128 ≤ c) → r < 128 →
    decLoop bytes fuel ((cbs ++ [r]).headD 0) i x p
      = some (r, i + cbs.length, x + p * cValC cbs, p * 128 ^ cbs.length) := by
  intro cbs
  induction cbs with
  | nil =>
    intro fuel bytes r i x p _ _ _ hr
    cases fuel with
    | zero => simp [decLoop, cValC]
    | succ n => simp [decLoop, hr, cValC]
  | cons c cs ih =>
    intro fuel bytes r i x p hf hread hc hr
    have hcge : 128 ≤ c := hc c (by simp)
    cases fuel with
    | zero => simp at hf
    | succ n =>
      have hb1 : bytes[i + 1]? = some ((cs ++ [r]).headD 0) := by
        have h := hread 1 (by simp)
        simpa [List.getElem?_cons_succ] using h.trans (by cases cs <;> simp)
      have hrec := ih n bytes r (i + 1) (x + (c - 127) * p) (p * 128)
        (by simpa using hf)
        (by
          intro k hk
          have h := hread (k + 1) (by simpa using Nat.succ_lt_succ hk)
          have harith : i + (k + 1) = i + 1 + k := by omega
          rw [harith] at h
          simpa [List.getElem?_cons_succ] using h)
        (fun b hb => hc b (List.mem_cons_of_mem c hb)) hr
      have hhead : ((c :: cs) ++ [r]).headD 0 = c := by simp
      rw [hhead]
      simp only [decLoop, if_neg (by omega : ¬ c < 128), hb1]
      rw [hrec]
      have e1 : i + 1 + cs.length = i + (c :: cs).length := by simp; omega
      have e2 : x + (c - 127) * p + p * 128 * cValC cs = x + p * cValC (c :: cs) := by
        simp only [cValC]
        generalize c - 127 = c0
        ring
      have e3 : p * 128 * 128 ^ cs.length = p * 128 ^ (c :: cs).length := by
        simp only [List.length_cons, pow_succ]
        ring
      rw [e1, e2, e3]

theorem suNext_encBytes (pre suf : List Nat) (d t : Nat) (hd : d < 2 ^ 32) :
    suNext (pre ++ encBytes d ++ suf) ⟨pre.length, t⟩
      = some (some (t + d + 1, ⟨pre.length + (encBytes d).length, t + d + 1⟩)) := by
  obtain ⟨h1, _, h3, h4⟩ := pushLoop_spec 4 d (lt_of_lt_of_le hd le_bnd4)
  have hmod : (pushLoop 4 d).2 % 256 = (pushLoop 4 d).2 := Nat.mod_eq_of_lt (by omega)
  have henc : encBytes d = (pushLoop 4 d).1 ++ [(pushLoop 4 d).2] := by
    rw [encBytes, hmod]
  have hlen : (encBytes d).length = (pushLoop 4 d).1.length + 1 := by simp [henc]
  have hguard : ¬ (pre ++ encBytes d ++ suf).length ≤ pre.length := by
    simp [hlen]
  have hread : ∀ k, k < (pushLoop 4 d).1.length + 1 →
      (pre ++ encBytes d ++ suf)[pre.length + k]?
        = ((pushLoop 4 d).1 ++ [(pushLoop 4 d).2])[k]? := by
    intro k hk
    rw [← henc]
    exact getElem?_append_mid pre (encBytes d) suf k (by omega)
  have hb0 : (pre ++ encBytes d ++ suf)[pre.length]?
      = some (((pushLoop 4 d).1 ++ [(pushLoop 4 d).2]).headD 0) := by
    have h := hread 0 (by omega)
    simpa using h.trans (by cases hpl : (pushLoop 4 d).1 <;> simp)
  have hdec := decLoop_spec (pushLoop 4 d).1 4 (pre ++ encBytes d ++ suf) (pushLoop 4 d).2
    pre.length 0 1 (pushLoop_spec 4 d (lt_of_lt_of_le hd le_bnd4)).2.1
    hread (fun c hcmem => ((h3 c hcmem).1)) h1
  have hv : 0 + 1 * cValC (pushLoop 4 d).1
      + ((pushLoop 4 d).2 + 1) * (1 * 128 ^ (pushLoop 4 d).1.length) + t = t + d + 1 := by
    simp only [Nat.zero_add, Nat.one_mul] at h4 ⊢
    omega
  simp only [suNext, if_neg hguard, hb0, hdec, hlen]
  simp only [Option.some.injEq, Prod.mk.injEq, IterState.mk.injEq]
  refine ⟨hv, ?_, hv⟩
  omega

/-- The byte stream a sequence of pushes appends, starting from top `t`. -/
def encAll (t : Nat) : List Nat → List Nat
  | [] => []
  | v :: vs => encBytes ((v + 2 ^ 32 - (t + 1)) % 2 ^ 32) ++ encAll v vs

theorem pushList_eq (vs : List Nat) : ∀ (f : VarintSUFactory),
    chainLt f.top vs = true →
    pushList f vs = ⟨f.vec ++ encAll f.top vs, lastD f.top vs, f.len + vs.length⟩ := by
  induction vs with
  | nil =>
    intro f _
    simp [pushList, encAll, lastD]
  | cons v vs ih =>
    intro f hch
    simp only [chainLt, Bool.and_eq_true, decide_eq_true_eq] at hch
    have hne : ¬ v = f.top := by omega
    simp only [pushList, push_int, if_neg hne]
    rw [ih _ (by simpa using hch.2)]
    simp only [encAll, lastD, List.append_assoc, List.length_cons,
      VarintSUFactory.mk.injEq]
    refine ⟨trivial, trivial, by omega⟩

theorem suIterAll_encAll (vs : List Nat) : ∀ (t : Nat) (pre : List Nat) (fuel : Nat),
    chainLt t vs = true → allLt32 vs = true → t < 2 ^ 32 → vs.length + 1 ≤ fuel →
    suIterAll (pre ++ encAll t vs) fuel ⟨pre.length, t⟩ = some vs := by
  induction vs with
  | nil =>
    intro t pre fuel _ _ _ hf
    simp only [List.length_nil] at hf
    cases fuel with
    | zero => omega
    | succ n => simp [suIterAll, suNext, encAll]
  | cons v vs ih =>
    intro t pre fuel hch hall ht hf
    simp only [chainLt, Bool.and_eq_true, decide_eq_true_eq] at hch
    simp only [allLt32, List.all_cons, Bool.and_eq_true, decide_eq_true_eq] at hall
    simp only [List.length_cons] at hf
    cases fuel with
    | zero => omega
    | succ n =>
      have hd : (v + 2 ^ 32 - (t + 1)) % 2 ^ 32 = v - t - 1 := by
        have h1 := hch.1
        have h2 := hall.1
        omega
      have hbuf : pre ++ encAll t (v :: vs)
          = pre ++ encBytes ((v + 2 ^ 32 - (t + 1)) % 2 ^ 32) ++ encAll v vs := by
        simp [encAll, List.append_assoc]
      have hval : t + ((v + 2 ^ 32 - (t + 1)) % 2 ^ 32) + 1 = v := by
        rw [hd]; omega
      have hnext := suNext_encBytes pre (encAll v vs) ((v + 2 ^ 32 - (t + 1)) % 2 ^ 32) t
        (by rw [hd]; omega)
      rw [hval] at hnext
      have hpre2 : pre.length + (encBytes ((v + 2 ^ 32 - (t + 1)) % 2 ^ 32)).length
          = (pre ++ encBytes ((v + 2 ^ 32 - (t + 1)) % 2 ^ 32)).length := by
        simp
      rw [hpre2] at hnext
      simp only [suIterAll, hbuf, hnext]
      rw [ih v (pre ++ encBytes ((v + 2 ^ 32 - (t + 1)) % 2 ^ 32)) n (by simpa using hch.2)
        (by simpa [allLt32] using hall.2) hall.1 (by omega)]
      rfl

theorem encBytes_length_pos (d : Nat) : 1 ≤ (encBytes d).length := by
  simp [encBytes]

theorem encAll_length (vs : List Nat) : ∀ t, vs.length ≤ (encAll t vs).length := by
  induction vs with
  | nil => intro t; simp [encAll]
  | cons v vs ih =>
    intro t
    simp only [encAll, List.length_append, List.length_cons]
    have h1 := encBytes_length_pos ((v + 2 ^ 32 - (t + 1)) % 2 ^ 32)
    have h2 := ih v
    omega

/-- Round trip for SimpleUnary: pushing a chain strictly increasing from the
initial top 0 and decoding the sealed buffer returns the original values. -/
theorem su_roundtrip (vs : List Nat) (hch : chainLt 0 vs = true) (hall : allLt32 vs = true) :
    suDecode (into_varint_su (pushList VarintSUFactory.new vs)).1 = some vs := by
  have hpush := pushList_eq vs VarintSUFactory.new (by simpa using hch)
  rw [suDecode]
  simp only [hpush, into_varint_su]
  have hnil : (VarintSUFactory.new.vec ++ encAll VarintSUFactory.new.top vs)
      = ([] : List Nat) ++ encAll 0 vs := by
    simp [VarintSUFactory.new]
  rw [hnil]
  have hlen := encAll_length vs 0
  have := suIterAll_encAll vs 0 [] (([] : List Nat) ++ encAll 0 vs).length.succ hch hall
    (by norm_num) (by simpa using Nat.succ_le_succ hlen)
  simpa using this

end SU

namespace GB

/-- Little-endian bytes of a `u32` delta, as `delta.to_ne_bytes()` produces on
the x86-64 target the source is written for. -/
def bytes4 (delta : Nat) : List Nat :=
  [delta % 256, delta / 256 % 256, delta / 65536 % 256, delta / 16777216 % 256]

/-- Helper for the trailing-zero stripping loop, acting on the reversed list:
drop zeros from the front while more than one element remains. -/
def dropZerosKeepOne : List Nat → List Nat
  | [] => []
  | [b] => [b]
  | b :: rest => if b = 0 then dropZerosKeepOne rest else b :: rest

/-- The `while x_bytes.len() > 1 && x_bytes[last] == 0` loop of `push_int`:
remove trailing zero bytes down to a minimum length of one. -/
def stripTrailing (l : List Nat) : List Nat := (dropZerosKeepOne l.reverse).reverse

/-- The payload bytes one pushed delta contributes. -/
def encDelta (delta : Nat) : List Nat := stripTrailing (bytes4 delta)

/-- Mirrors `VarintGBFactory` from `varint_gb.rs`. -/
structure VarintGBFactory where
  byte_stream : List Nat
  top : Nat
  descriptor_index : Nat
  index_in_chunk : Nat
  bytes_in_current_chunk : Nat
  no_of_chunks : Nat
  len : Nat
deriving DecidableEq, Repr

/-- Mirrors `VarintGBFactory::new`. -/
def VarintGBFactory.new : VarintGBFactory := ⟨[], 0, 0, 0, 0, 0, 0⟩

/-- Mirrors `VarintGBFactory::get_top`. -/
def get_top (f : VarintGBFactory) : Nat := f.top

/-- Mirrors `VarintGBFactory::push_int`.  The `u32` wrapping subtraction
`x - self.top` is `(x + 2 ^ 32 - top) % 2 ^ 32`; the descriptor byte is
updated in place with `^=` on the already-extended stream. -/
def push_int (f : VarintGBFactory) (x : Nat) : VarintGBFactory :=
  let f1 := if f.index_in_chunk = 0 then
      { f with
        byte_stream := f.byte_stream ++ [0]
        descriptor_index := (f.byte_stream ++ [0]).length - 1
        bytes_in_current_chunk := 0
        no_of_chunks := f.no_of_chunks + 1 }
    else f
  let delta := (x + 2 ^ 32 - f.top) % 2 ^ 32
  let x_bytes := stripTrailing (bytes4 delta)
  let int_len := x_bytes.length - 1
  { byte_stream := (f1.byte_stream ++ x_bytes).set f1.descriptor_index
      (((f1.byte_stream ++ x_bytes).getD f1.descriptor_index 0)
        ^^^ (int_len <<< (f1.index_in_chunk * 2)))
    top := x
    descriptor_index := f1.descriptor_index
    index_in_chunk := (f1.index_in_chunk + 1) % 4
    bytes_in_current_chunk := f1.bytes_in_current_chunk + int_len
    no_of_chunks := f1.no_of_chunks
    len := f.len + 1 }

/-- Mirrors `VarintGBFactory::push_if_not_on_top`. -/
def push_if_not_on_top (f : VarintGBFactory) (num : Nat) : VarintGBFactory :=
  if f.top ≠ num then push_int f num else f

/-- Mirrors the sealed `VarintGB { byte_stream, len }`. -/
structure VarintGB where
  byte_stream : List Nat
  len : Nat
deriving DecidableEq, Repr

/-- Mirrors `VarintGBFactory::into_varint_gb`: `mem::replace` of the stream. -/
def into_varint_gb (f : VarintGBFactory) : VarintGB × VarintGBFactory :=
  (⟨f.byte_stream, f.len⟩, { f with byte_stream := [] })

/-- Mirrors `descriptor_length_i`: mask, shift back, add one. -/
def descriptor_length_i (descriptor : Nat) (index : Nat) : Nat :=
  ((descriptor &&& (3 <<< (index * 2))) >>> (index * 2)) + 1

/-- Mirrors `descriptor_length_total`: the loop `for i in 0..4`. -/
def descriptor_length_total (descriptor : Nat) : Nat :=
  (List.range 4).foldl (fun acc i => acc + descriptor_length_i descriptor i) 0

/-- Inner loop of `shuffle_sequence_from_descriptor`: for the remaining output
byte positions `n, n+1, ...` of one slot, emit the running `word_index` while
`n < word_len`, and the produce-zero sentinel `-1` afterwards.  Returns the
emitted mask entries and the final `word_index`. -/
def shuffleInner (wordLen : Nat) : Nat → Nat → Nat → List Int × Nat
  | wordIndex, _, 0 => ([], wordIndex)
  | wordIndex, n, rem + 1 =>
    if n < wordLen then
      let r := shuffleInner wordLen (wordIndex + 1) (n + 1) rem
      ((wordIndex : Int) :: r.1, r.2)
    else
      let r := shuffleInner wordLen wordIndex (n + 1) rem
      ((-1 : Int) :: r.1, r.2)

/-- Outer loop of `shuffle_sequence_from_descriptor` over the four slots. -/
def shuffleOuter (descriptor : Nat) : Nat → Nat → Nat → List Int
  | _, _, 0 => []
  | wordIndex, i, rem + 1 =>
    let r := shuffleInner (descriptor_length_i descriptor i) wordIndex 0 4
    r.1 ++ shuffleOuter descriptor r.2 (i + 1) rem

/-- Mirrors `shuffle_sequence_from_descriptor` (the mask is a 16-entry `i8`
array in the source; entries are only ever `-1` or `0..15`). -/
def shuffle_sequence_from_descriptor (descriptor : Nat) : List Int :=
  shuffleOuter descriptor 0 0 4

/-- Mirrors `DescriptorEntry`. -/
structure DescriptorEntry where
  shuffle_sequence : List Int
  length : Nat
deriving DecidableEq, Repr

/-- Mirrors `DescriptorTable::create_entry_for_descriptor`. -/
def create_entry_for_descriptor (descriptor : Nat) : DescriptorEntry :=
  ⟨shuffle_sequence_from_descriptor descriptor, descriptor_length_total descriptor⟩

/-- Mirrors `DescriptorTable`, built for all 256 descriptor values. -/
structure DescriptorTable where
  table : List DescriptorEntry
deriving DecidableEq, Repr

/-- Mirrors `DescriptorTable::new`. -/
def DescriptorTable.new : DescriptorTable :=
  ⟨(List.range 256).map create_entry_for_descriptor⟩

/-- Mirrors `DescriptorTable::get_entry_for_descriptor`. -/
def get_entry_for_descriptor (t : DescriptorTable) (descriptor : Nat) : DescriptorEntry :=
  t.table.getD descriptor ⟨[], 0⟩

/-- Byte-shuffle semantics of `_mm_shuffle_epi8`: each output byte is zero
when the mask byte has its high bit set (the `-1` sentinel), and otherwise
selects the source byte indexed by the low four mask bits. -/
def pshufb (src : List Nat) (mask : List Int) : List Nat :=
  mask.map (fun m => if m < 0 then 0 else src.getD (m.toNat % 16) 0)

/-- Little-endian value of `w` bytes of `bs` starting at `start`. -/
def leValFrom (bs : List Nat) : Nat → Nat → Nat
  | _, 0 => 0
  | start, w + 1 => bs.getD start 0 + 256 * leValFrom bs (start + 1) w

/-- Reinterpreting 16 bytes as four little-endian `u32` lanes, as the
`transmute::<__m128i, [u32; 4]>` in the source does on x86-64. -/
def lanes (bytes : List Nat) : List Nat :=
  [leValFrom bytes 0 4, leValFrom bytes 4 4, leValFrom bytes 8 4, leValFrom bytes 12 4]

/-- Mirrors `decode_chunk_by_address`: 16-byte load, shuffle, reinterpret. -/
def decode_chunk_by_address (window : List Nat) (shuffle_sequence : List Int) : List Nat :=
  lanes (pshufb window shuffle_sequence)

/-- Inner loop of `decode_chunk_safe_non_simd` for one slot: read `len` bytes
little-endian, or fail (`none`) if the buffer runs out first (the source
`return chunk`s with the slots written so far). -/
def slotLoop (bs : List Nat) : Nat → Nat → Nat → Nat → Option (Nat × Nat)
  | 0, index, num, _ => some (num, index)
  | len + 1, index, num, pos =>
    if bs.length ≤ index then none
    else slotLoop bs len (index + 1) (num + bs.getD index 0 <<< (pos * 8)) (pos + 1)

/-- Outer loop of `decode_chunk_safe_non_simd` over slots `i, i+1, ...`:
on buffer exhaustion the current and remaining slots keep their initial 0. -/
def dcsGo (descriptor : Nat) (bs : List Nat) : Nat → Nat → Nat → List Nat
  | _, _, 0 => []
  | i, index, rem + 1 =>
    match slotLoop bs (descriptor_length_i descriptor i) index 0 0 with
    | none => List.replicate (rem + 1) 0
    | some (num, index2) => num :: dcsGo descriptor bs (i + 1) index2 rem

/-- Mirrors `decode_chunk_safe_non_simd`. -/
def decode_chunk_safe_non_simd (descriptor : Nat) (byte_stream : List Nat) : List Nat :=
  dcsGo descriptor byte_stream 0 0 4

/-- Mirrors `delta_chunk_to_value_chunk`: intra-group prefix sums plus the
carried `last_top`, in wrapping `u32` arithmetic. -/
def delta_chunk_to_value_chunk (c : List Nat) (last_top : Nat) : List Nat :=
  match c with
  | [c0, c1, c2, c3] =>
    let a0 := (c0 + last_top) % 2 ^ 32
    let a1 := (c1 + a0) % 2 ^ 32
    let a2 := (c2 + a1) % 2 ^ 32
    let a3 := (c3 + a2) % 2 ^ 32
    [a0, a1, a2, a3]
  | l => l

/-- State of `varint_gb::Iter`; the table and byte stream are passed
separately. -/
structure Iter where
  descriptor_index : Nat
  last_top : Nat
deriving DecidableEq, Repr

/-- The safe scalar branch of `Iter::next`. -/
def safeStep (table : DescriptorTable) (bs : List Nat) (s : Iter) : Option (List Nat × Iter) :=
  let descriptor := bs.getD s.descriptor_index 0
  let e := get_entry_for_descriptor table descriptor
  let delta_chunk := decode_chunk_safe_non_simd descriptor (bs.drop (s.descriptor_index + 1))
  let vals := delta_chunk_to_value_chunk delta_chunk s.last_top
  some (vals, ⟨s.descriptor_index + e.length + 1, vals.getD 3 0⟩)

/-- The fast shuffle branch of `Iter::next`: an unconditional 16-byte load
starting right after the descriptor byte. -/
def fastStep (table : DescriptorTable) (bs : List Nat) (s : Iter) : Option (List Nat × Iter) :=
  let descriptor := bs.getD s.descriptor_index 0
  let e := get_entry_for_descriptor table descriptor
  let window := (bs.drop (s.descriptor_index + 1)).take 16
  let delta_chunk := decode_chunk_by_address window e.shuffle_sequence
  let vals := delta_chunk_to_value_chunk delta_chunk s.last_top
  some (vals, ⟨s.descriptor_index + e.length + 1, vals.getD 3 0⟩)

/-- Mirrors `varint_gb::Iter::next`, with the source boundary check
`descriptor_index + 17 >= byte_stream.len()` choosing the safe branch. -/
def Iter.next (table : DescriptorTable) (bs : List Nat) (s : Iter) : Option (List Nat × Iter) :=
  if bs.length ≤ s.descriptor_index then none
  else if bs.length ≤ s.descriptor_index + 17 then safeStep table bs s
  else fastStep table bs s

/-- Runs the iterator to exhaustion, collecting the yielded 4-value chunks. -/
def iterChunks (table : DescriptorTable) (bs : List Nat) : Nat → Iter → List (List Nat)
  | 0, _ => []
  | fuel + 1, s =>
    match Iter.next table bs s with
    | none => []
    | some (chunk, s2) => chunk :: iterChunks table bs fuel s2

/-- Values a sealed GroupBinary sequence decodes to: the chunks yielded by
the iterator, flattened and truncated to the sequence count `len` (the final
group is conceptually padded; `len` is the sealed count the caller reads). -/
def gbDecode (g : VarintGB) (table : DescriptorTable) : List Nat :=
  (iterChunks table g.byte_stream (g.byte_stream.length + 1) ⟨0, 0⟩).flatten.take g.len

/-- The `for val in delta_chunk { output.push(val + output.last()...) }` loop
of the fast branch of `VarintGB::get_values` (wrapping `u32` addition). -/
def pushAllVals (out : List Nat) : List Nat → List Nat
  | [] => out
  | v :: vs => pushAllVals (out ++ [(v + out.getLastD 0) % 2 ^ 32]) vs

/-- The same loop in the safe branch of `get_values`, which instead
`return`s the output built so far as soon as it meets a zero delta.  The
boolean records whether that early return fired. -/
def pushNonzero (out : List Nat) : List Nat → List Nat × Bool
  | [] => (out, false)
  | v :: vs =>
    if v = 0 then (out, true)
    else pushNonzero (out ++ [(v + out.getLastD 0) % 2 ^ 32]) vs

/-- Mirrors the `while descriptor_index < byte_stream.len()` loop of
`VarintGB::get_values`. -/
def get_values_go (table : DescriptorTable) (bs : List Nat) : Nat → Nat → List Nat → List Nat
  | 0, _, out => out
  | fuel + 1, di, out =>
    if bs.length ≤ di then out
    else
      let descriptor := bs.getD di 0
      let e := get_entry_for_descriptor table descriptor
      if bs.length ≤ di + 17 then
        let delta_chunk := decode_chunk_safe_non_simd descriptor (bs.drop (di + 1))
        let r := pushNonzero out delta_chunk
        if r.2 then r.1
        else get_values_go table bs fuel (di + e.length + 1) r.1
      else
        let window := (bs.drop (di + 1)).take 16
        let delta_chunk := decode_chunk_by_address window e.shuffle_sequence
        get_values_go table bs fuel (di + e.length + 1) (pushAllVals out delta_chunk)

/-- Mirrors `VarintGB::get_values`. -/
def get_values (g : VarintGB) (table : DescriptorTable) : List Nat :=
  get_values_go table g.byte_stream (g.byte_stream.length + 1) 0 []

/-- Pushes a list of values in order through `push_int`. -/
def pushList (f : VarintGBFactory) : List Nat → VarintGBFactory
  | [] => f
  | v :: vs => pushList (push_int f v) vs

example : encDelta 0 = [0] := by decide
example : encDelta 2 = [2] := by decide
example : encDelta 65529 = [249, 255] := by decide
example : encDelta (2 ^ 24) = [0, 0, 0, 1] := by decide
example : descriptor_length_i 27 0 = 4 ∧ descriptor_length_i 27 1 = 3
    ∧ descriptor_length_i 27 2 = 2 ∧ descriptor_length_i 27 3 = 1 := by decide
example :
    (pushList VarintGBFactory.new [1, 2, 3, 4]).byte_stream = [0, 1, 1, 1, 1] := by decide
example :
    gbDecode (into_varint_gb (pushList VarintGBFactory.new
      [1, 2, 3, 4, 5, 6, 7, 8, 65537, 65538, 65539, 65540, 65541])).1 DescriptorTable.new
    = [1, 2, 3, 4, 5, 6, 7, 8, 65537, 65538, 65539, 65540, 65541] := by decide
example :
    get_values (into_varint_gb (pushList VarintGBFactory.new
      [1, 2, 3, 4, 5, 6, 7, 8, 65537, 65538, 65539, 65540, 65541])).1 DescriptorTable.new
    = [1, 2, 3, 4, 5, 6, 7, 8, 65537, 65538, 65539, 65540, 65541] := by decide
example : gbDecode (into_varint_gb (pushList VarintGBFactory.new [5])).1
    DescriptorTable.new = [5] := by decide

/-- Little-endian value of a whole byte list. -/
def leValList : List Nat → Nat
  | [] => 0
  | b :: bs => b + 256 * leValList bs

theorem leValList_append (a b : List Nat) :
    leValList (a ++ b) = leValList a + 256 ^ a.length * leValList b := by
  induction a with
  | nil => simp [leValList]
  | cons x xs ih =>
    show x + 256 * leValList (xs ++ b)
      = x + 256 * leValList xs + 256 ^ (xs.length + 1) * leValList b
    rw [ih, pow_succ]
    ring

theorem leValList_zeros (zs : List Nat) (h : ∀ z ∈ zs, z = 0) : leValList zs = 0 := by
  induction zs with
  | nil => rfl
  | cons z zs ih =>
    have hz : z = 0 := h z (by simp)
    simp [leValList, hz, ih (fun a ha => h a (List.mem_cons_of_mem z ha))]

theorem dropZerosKeepOne_spec (l : List Nat) :
    ∃ zs, l = zs ++ dropZerosKeepOne l ∧ ∀ z ∈ zs, z = 0 := by
  induction l with
  | nil => exact ⟨[], rfl, by simp⟩
  | cons b rest ih =>
    cases rest with
    | nil => exact ⟨[], rfl, by simp⟩
    | cons c rest2 =>
      by_cases hb : b = 0
      · obtain ⟨zs, hz1, hz2⟩ := ih
        refine ⟨b :: zs, ?_, ?_⟩
        · simp only [dropZerosKeepOne, if_pos hb, List.cons_append]
          exact congrArg (b :: ·) hz1
        · intro z hz
          rcases List.mem_cons.mp hz with h | h
          · omega
          · exact hz2 z h
      · exact ⟨[], by simp [dropZerosKeepOne, hb], by simp⟩

theorem dropZerosKeepOne_ne_nil (l : List Nat) (h : l ≠ []) : dropZerosKeepOne l ≠ [] := by
  induction l with
  | nil => exact absurd rfl h
  | cons b rest ih =>
    cases rest with
    | nil => simp [dropZerosKeepOne]
    | cons c rest2 =>
      by_cases hb : b = 0
      · simp only [dropZerosKeepOne, if_pos hb]
        exact ih (by simp)
      · simp [dropZerosKeepOne, hb]

theorem stripTrailing_spec (l : List Nat) :
    ∃ zs, l = stripTrailing l ++ zs ∧ ∀ z ∈ zs, z = 0 := by
  obtain ⟨zs, h1, h2⟩ := dropZerosKeepOne_spec l.reverse
  refine ⟨zs.reverse, ?_, fun z hz => h2 z (List.mem_reverse.mp hz)⟩
  have := congrArg List.reverse h1
  simpa [stripTrailing, List.reverse_append] using this

theorem stripTrailing_length_le (l : List Nat) : (stripTrailing l).length ≤ l.length := by
  obtain ⟨zs, h1, _⟩ := stripTrailing_spec l
  have := congrArg List.length h1
  simp only [List.length_append] at this
  omega

theorem stripTrailing_ne_nil (l : List Nat) (h : l ≠ []) : stripTrailing l ≠ [] := by
  intro hc
  have hne := dropZerosKeepOne_ne_nil l.reverse (by simpa using h)
  have : (dropZerosKeepOne l.reverse).reverse = [] := hc
  simp only [List.reverse_eq_nil_iff] at this
  exact hne this

theorem leValList_stripTrailing (l : List Nat) : leValList (stripTrailing l) = leValList l := by
  obtain ⟨zs, h1, h2⟩ := stripTrailing_spec l
  conv_rhs => rw [h1]
  rw [leValList_append, leValList_zeros zs h2]
  omega

theorem bytes4_leVal (delta : Nat) (h : delta < 2 ^ 32) : leValList (bytes4 delta) = delta := by
  simp only [bytes4, leValList]
  omega

theorem encDelta_leVal (delta : Nat) (h : delta < 2 ^ 32) : leValList (encDelta delta) = delta := by
  rw [encDelta, leValList_stripTrailing, bytes4_leVal delta h]

theorem encDelta_length_pos (delta : Nat) : 1 ≤ (encDelta delta).length := by
  have h := stripTrailing_ne_nil (bytes4 delta) (by simp [bytes4])
  have : encDelta delta ≠ [] := h
  cases henc : encDelta delta with
  | nil => exact absurd henc this
  | cons a l => simp

theorem encDelta_length_le (delta : Nat) : (encDelta delta).length ≤ 4 := by
  have h := stripTrailing_length_le (bytes4 delta)
  simpa [bytes4] using h

/-- Offset of slot `s` inside a group payload: sum of the earlier widths. -/
def descOffs (d : Nat) : Nat → Nat
  | 0 => 0
  | s + 1 => descOffs d s + descriptor_length_i d s

theorem descriptor_length_i_char : ∀ d < 256, ∀ i < 4,
    descriptor_length_i d i = d / 4 ^ i % 4 + 1 := by decide

theorem descriptor_length_total_char : ∀ d < 256,
    descriptor_length_total d = descriptor_length_i d 0 + descriptor_length_i d 1
      + descriptor_length_i d 2 + descriptor_length_i d 3 := by decide

theorem shuffle_length : ∀ d < 256, (shuffle_sequence_from_descriptor d).length = 16 := by
  decide

theorem shuffle_char : ∀ d < 256, ∀ s < 4, ∀ n < 4,
    (shuffle_sequence_from_descriptor d).getD (4 * s + n) 0
      = if n < descriptor_length_i d s then ((descOffs d s + n : Nat) : Int) else -1 := by
  decide

theorem xor_shift_add : ∀ j < 4, ∀ D < 4 ^ j, ∀ a < 4,
    D ^^^ (a <<< (j * 2)) = D + a * 4 ^ j := by decide

theorem get_entry_new (d : Nat) (hd : d < 256) :
    get_entry_for_descriptor DescriptorTable.new d = create_entry_for_descriptor d := by
  simp only [get_entry_for_descriptor, DescriptorTable.new]
  rw [List.getD_eq_getElem?_getD]
  rw [List.getElem?_map]
  rw [List.getElem?_range hd]
  rfl

theorem leValFrom_mid (mid : List Nat) : ∀ (pre suf : List Nat),
    leValFrom (pre ++ mid ++ suf) pre.length mid.length = leValList mid := by
  induction mid with
  | nil => intro pre suf; rfl
  | cons m ms ih =>
    intro pre suf
    show (pre ++ (m :: ms) ++ suf).getD pre.length 0
        + 256 * leValFrom (pre ++ (m :: ms) ++ suf) (pre.length + 1) ms.length
      = m + 256 * leValList ms
    have h1 : (pre ++ (m :: ms) ++ suf).getD pre.length 0 = m := by
      have h := getD_cons_mid pre (ms ++ suf) m 0
      simpa [List.append_assoc] using h
    have h2 : pre ++ (m :: ms) ++ suf = (pre ++ [m]) ++ ms ++ suf := by
      simp [List.append_assoc]
    have h3 : leValFrom (pre ++ (m :: ms) ++ suf) (pre.length + 1) ms.length
        = leValList ms := by
      rw [h2]
      have h := ih (pre ++ [m]) suf
      simpa using h
    rw [h1, h3]

theorem shiftLeft_mul256 (a p : Nat) : a <<< (p * 8) = a * 256 ^ p := by
  have h : (2 : Nat) ^ (p * 8) = 256 ^ p := by
    rw [Nat.mul_comm, pow_mul]
    norm_num
  rw [Nat.shiftLeft_eq, h]

theorem slotLoop_some (w : Nat) : ∀ (bs : List Nat) (index num pos : Nat),
    index + w ≤ bs.length →
    slotLoop bs w index num pos = some (num + 256 ^ pos * leValFrom bs index w, index + w) := by
  induction w with
  | zero => intro bs index num pos _; simp [slotLoop, leValFrom]
  | succ n ih =>
    intro bs index num pos h
    have hidx : ¬ bs.length ≤ index := by omega
    simp only [slotLoop, if_neg hidx]
    rw [ih bs (index + 1) _ (pos + 1) (by omega)]
    simp only [Option.some.injEq, Prod.mk.injEq, leValFrom]
    refine ⟨?_, by omega⟩
    rw [shiftLeft_mul256, pow_succ]
    ring

theorem slotLoop_none (w : Nat) : ∀ (bs : List Nat) (index num pos : Nat),
    1 ≤ w → bs.length < index + w →
    slotLoop bs w index num pos = none := by
  induction w with
  | zero => intro bs index num pos h1 _; omega
  | succ n ih =>
    intro bs index num pos _ h2
    by_cases hidx : bs.length ≤ index
    · simp [slotLoop, hidx]
    · simp only [slotLoop, if_neg hidx]
      exact ih bs (index + 1) _ (pos + 1) (by omega) (by omega)

/-- Cumulative widths of `k` consecutive slots starting at slot `i`. -/
def sumW (d i : Nat) : Nat → Nat
  | 0 => 0
  | k + 1 => sumW d i k + descriptor_length_i d (i + k)

theorem descriptor_length_i_pos (d i : Nat) : 1 ≤ descriptor_length_i d i :=
  Nat.succ_le_succ (Nat.zero_le _)

theorem sumW_shift (d i : Nat) : ∀ k, sumW d i (k + 1) = descriptor_length_i d i + sumW d (i + 1) k := by
  intro k
  induction k with
  | zero => simp [sumW]
  | succ k ih =>
    show sumW d i (k + 1) + descriptor_length_i d (i + (k + 1))
      = descriptor_length_i d i + (sumW d (i + 1) k + descriptor_length_i d (i + 1 + k))
    rw [ih]
    have h : i + (k + 1) = i + 1 + k := by omega
    rw [h]
    omega

theorem dcsGo_char : ∀ (rem i index d : Nat) (bs : List Nat),
    (dcsGo d bs i index rem).length = rem ∧
    (∀ k, k < rem → (dcsGo d bs i index rem).getD k 0
      = if index + sumW d i (k + 1) ≤ bs.length
        then leValFrom bs (index + sumW d i k) (descriptor_length_i d (i + k))
        else 0) := by
  intro rem
  induction rem with
  | zero => intro i index d bs; exact ⟨rfl, by omega⟩
  | succ n ih =>
    intro i index d bs
    by_cases h : index + descriptor_length_i d i ≤ bs.length
    · have hs := slotLoop_some (descriptor_length_i d i) bs index 0 0 h
      simp only [dcsGo, hs]
      obtain ⟨ihl, ihg⟩ := ih (i + 1) (index + descriptor_length_i d i) d bs
      refine ⟨by simp [ihl], ?_⟩
      intro k hk
      cases k with
      | zero =>
        have hc : index + sumW d i 1 ≤ bs.length := by
          simp only [sumW]
          simpa using h
        simp only [List.getD_cons_zero, if_pos hc]
        simp [sumW]
      | succ k =>
        have hg := ihg k (by omega)
        simp only [List.getD_cons_succ]
        rw [hg]
        have e1 : index + descriptor_length_i d i + sumW d (i + 1) (k + 1)
            = index + sumW d i (k + 1 + 1) := by
          rw [sumW_shift d i (k + 1)]
          omega
        have e2 : index + descriptor_length_i d i + sumW d (i + 1) k
            = index + sumW d i (k + 1) := by
          rw [sumW_shift d i k]
          omega
        have e3 : i + 1 + k = i + (k + 1) := by omega
        rw [e1, e2, e3]
    · have hs := slotLoop_none (descriptor_length_i d i) bs index 0 0
        (descriptor_length_i_pos d i) (by omega)
      simp only [dcsGo, hs]
      refine ⟨by simp, ?_⟩
      intro k hk
      have hc : ¬ index + sumW d i (k + 1) ≤ bs.length := by
        have hw : descriptor_length_i d i ≤ sumW d i (k + 1) := by
          rw [sumW_shift d i k]
          omega
        omega
      rw [if_neg hc]
      simp [List.getD_eq_getElem?_getD, List.getElem?_replicate, hk]

theorem decode_chunk_safe_char (d : Nat) (bs : List Nat) :
    (decode_chunk_safe_non_simd d bs).length = 4 ∧
    (∀ k, k < 4 → (decode_chunk_safe_non_simd d bs).getD k 0
      = if sumW d 0 (k + 1) ≤ bs.length
        then leValFrom bs (sumW d 0 k) (descriptor_length_i d k)
        else 0) := by
  have h := dcsGo_char 4 0 0 d bs
  simpa [decode_chunk_safe_non_simd] using h

theorem sumW_zero_descOffs (d : Nat) : ∀ k, sumW d 0 k = descOffs d k := by
  intro k
  induction k with
  | zero => rfl
  | succ k ih =>
    show sumW d 0 k + descriptor_length_i d (0 + k) = descOffs d k + descriptor_length_i d k
    rw [ih]
    simp

theorem descOffs_four_le : ∀ d < 256, descOffs d 4 ≤ 16 := by decide

theorem descOffs_succ_le_four : ∀ d < 256, ∀ s < 4, descOffs d (s + 1) ≤ descOffs d 4 := by
  decide

theorem descriptor_length_i_le : ∀ d < 256, ∀ i < 4, descriptor_length_i d i ≤ 4 := by decide

theorem getD_take {α : Type} (l : List α) : ∀ (n i : Nat) (d : α), i < n →
    (l.take n).getD i d = l.getD i d := by
  induction l with
  | nil => intro n i d _; simp
  | cons a l ih =>
    intro n i d h
    cases n with
    | zero => omega
    | succ n =>
      cases i with
      | zero => simp
      | succ i =>
        simp only [List.take, List.getD_cons_succ]
        exact ih n i d (by omega)

theorem getD_map_lt {α β : Type} (f : α → β) (l : List α) : ∀ (i : Nat) (da : α) (db : β),
    i < l.length →
    (l.map f).getD i db = f (l.getD i da) := by
  induction l with
  | nil => intro i da db h; simp at h
  | cons a l ih =>
    intro i da db h
    cases i with
    | zero => simp
    | succ i =>
      simp only [List.map, List.getD_cons_succ]
      exact ih i da db (by simpa using h)

theorem pshufb_entry (d : Nat) (hd : d < 256) (bytes : List Nat) (s n : Nat) (hs : s < 4)
    (hn : n < 4) :
    (pshufb (bytes.take 16) (shuffle_sequence_from_descriptor d)).getD (4 * s + n) 0
      = if n < descriptor_length_i d s then bytes.getD (descOffs d s + n) 0 else 0 := by
  have hlen : (shuffle_sequence_from_descriptor d).length = 16 := shuffle_length d hd
  have hidx : 4 * s + n < (shuffle_sequence_from_descriptor d).length := by
    rw [hlen]; omega
  rw [pshufb, getD_map_lt _ _ (4 * s + n) 0 0 hidx]
  rw [shuffle_char d hd s hs n hn]
  by_cases hw : n < descriptor_length_i d s
  · rw [if_pos hw, if_pos hw]
    have hoff : descOffs d s + n < 16 := by
      have h1 := descOffs_succ_le_four d hd s hs
      have h2 := descOffs_four_le d hd
      have h3 : descOffs d (s + 1) = descOffs d s + descriptor_length_i d s := rfl
      omega
    rw [if_neg (by omega : ¬ ((descOffs d s + n : Nat) : Int) < 0)]
    have htn : ((descOffs d s + n : Nat) : Int).toNat = descOffs d s + n := by
      omega
    rw [htn, Nat.mod_eq_of_lt hoff]
    exact getD_take bytes 16 (descOffs d s + n) 0 hoff
  · rw [if_neg hw, if_neg hw]
    norm_num

theorem lane_char (d : Nat) (hd : d < 256) (bytes : List Nat) (s : Nat) (hs : s < 4) :
    leValFrom (pshufb (bytes.take 16) (shuffle_sequence_from_descriptor d)) (4 * s) 4
      = leValFrom bytes (descOffs d s) (descriptor_length_i d s) := by
  have e0 := pshufb_entry d hd bytes s 0 hs (by omega)
  have e1 := pshufb_entry d hd bytes s 1 hs (by omega)
  have e2 := pshufb_entry d hd bytes s 2 hs (by omega)
  have e3 := pshufb_entry d hd bytes s 3 hs (by omega)
  have hw1 : 1 ≤ descriptor_length_i d s := descriptor_length_i_pos d s
  have hw4 : descriptor_length_i d s ≤ 4 := descriptor_length_i_le d hd s hs
  have hlhs : leValFrom (pshufb (bytes.take 16) (shuffle_sequence_from_descriptor d)) (4 * s) 4
      = (pshufb (bytes.take 16) (shuffle_sequence_from_descriptor d)).getD (4 * s) 0
        + 256 * ((pshufb (bytes.take 16) (shuffle_sequence_from_descriptor d)).getD (4 * s + 1) 0
        + 256 * ((pshufb (bytes.take 16) (shuffle_sequence_from_descriptor d)).getD (4 * s + 2) 0
        + 256 * ((pshufb (bytes.take 16) (shuffle_sequence_from_descriptor d)).getD (4 * s + 3) 0
        + 256 * 0))) := by
    simp only [leValFrom]
  have ha0 : 4 * s + 0 = 4 * s := by omega
  rw [ha0] at e0
  rw [hlhs, e0, e1, e2, e3]
  interval_cases h : descriptor_length_i d s <;>
    · simp only [leValFrom, show descOffs d s + 1 + 1 = descOffs d s + 2 by omega,
        show descOffs d s + 2 + 1 = descOffs d s + 3 by omega]
      try norm_num

theorem fast_decode_char (d : Nat) (hd : d < 256) (bytes : List Nat) :
    decode_chunk_by_address (bytes.take 16) (shuffle_sequence_from_descriptor d)
      = [leValFrom bytes (descOffs d 0) (descriptor_length_i d 0),
         leValFrom bytes (descOffs d 1) (descriptor_length_i d 1),
         leValFrom bytes (descOffs d 2) (descriptor_length_i d 2),
         leValFrom bytes (descOffs d 3) (descriptor_length_i d 3)] := by
  have l0 := lane_char d hd bytes 0 (by omega)
  have l1 := lane_char d hd bytes 1 (by omega)
  have l2 := lane_char d hd bytes 2 (by omega)
  have l3 := lane_char d hd bytes 3 (by omega)
  simp only [decode_chunk_by_address, lanes]
  rw [show (0 : Nat) = 4 * 0 by omega] at l0 ⊢
  rw [show (4 : Nat) = 4 * 1 by omega, show (8 : Nat) = 4 * 2 by omega,
    show (12 : Nat) = 4 * 3 by omega]
  rw [l0, l1, l2, l3]

/-- Delta for one push with previous top `t` (wrapping `u32` subtraction). -/
def delta32 (t v : Nat) : Nat := (v + 2 ^ 32 - t) % 2 ^ 32

/-- Payload bytes of one group of pushed values with incoming top `t`. -/
def payloadFrom (t : Nat) : List Nat → List Nat
  | [] => []
  | v :: vs => encDelta (delta32 t v) ++ payloadFrom v vs

/-- Descriptor byte a group of pushed values accumulates, starting at `slot`. -/
def descFrom (t : Nat) : List Nat → Nat → Nat
  | [], _ => 0
  | v :: vs, slot => ((encDelta (delta32 t v)).length - 1) * 4 ^ slot + descFrom v vs (slot + 1)

/-- One encoded group: descriptor byte, then the interleaved payloads. -/
def groupBytes (t : Nat) (vs : List Nat) : List Nat := descFrom t vs 0 :: payloadFrom t vs

/-- The whole byte stream an in-order sequence of pushes produces: groups of
four values, the last group possibly partial. -/
def gbEncAll : Nat → List Nat → List Nat
  | _, [] => []
  | t, v :: vs =>
    groupBytes t ((v :: vs).take 4)
      ++ gbEncAll (lastD t ((v :: vs).take 4)) ((v :: vs).drop 4)
termination_by _ l => l.length
decreasing_by simp; omega

theorem push_int_start (f : VarintGBFactory) (x : Nat) (h : f.index_in_chunk = 0) :
    push_int f x
      = ⟨f.byte_stream ++ ((encDelta (delta32 f.top x)).length - 1) :: encDelta (delta32 f.top x),
         x, f.byte_stream.length, 1, (encDelta (delta32 f.top x)).length - 1,
         f.no_of_chunks + 1, f.len + 1⟩ := by
  have hshape : f.byte_stream ++ [0] ++ stripTrailing (bytes4 ((x + 2 ^ 32 - f.top) % 2 ^ 32))
      = f.byte_stream ++ 0 :: stripTrailing (bytes4 ((x + 2 ^ 32 - f.top) % 2 ^ 32)) := by
    simp
  have hidx : (f.byte_stream ++ [0]).length - 1 = f.byte_stream.length := by simp
  simp only [push_int, h, eq_self_iff_true, if_true]
  simp only [hshape, hidx]
  rw [getD_cons_mid f.byte_stream _ 0 0, set_cons_mid]
  simp only [VarintGBFactory.mk.injEq, encDelta, delta32]
  refine ⟨?_, trivial, trivial, trivial, by omega, trivial, trivial⟩
  rw [Nat.zero_xor, Nat.zero_mul, Nat.shiftLeft_zero]

theorem push_int_mid (pre P : List Nat) (D t bicc ch n j x : Nat) (hj : ¬ j = 0) :
    push_int ⟨pre ++ D :: P, t, pre.length, j, bicc, ch, n⟩ x
      = ⟨pre ++ (D ^^^ (((encDelta (delta32 t x)).length - 1) <<< (j * 2)))
            :: (P ++ encDelta (delta32 t x)),
         x, pre.length, (j + 1) % 4, bicc + ((encDelta (delta32 t x)).length - 1), ch, n + 1⟩ := by
  have hshape : (pre ++ D :: P) ++ stripTrailing (bytes4 ((x + 2 ^ 32 - t) % 2 ^ 32))
      = pre ++ D :: (P ++ stripTrailing (bytes4 ((x + 2 ^ 32 - t) % 2 ^ 32))) := by
    simp
  simp only [push_int, hj, if_neg hj, if_false]
  simp only [hshape]
  rw [getD_cons_mid pre _ D 0, set_cons_mid]
  simp only [VarintGBFactory.mk.injEq, encDelta, delta32]

theorem lastD_append (a b : List Nat) : ∀ t, lastD t (a ++ b) = lastD (lastD t a) b := by
  induction a with
  | nil => intro t; rfl
  | cons v vs ih =>
    intro t
    simp only [List.cons_append, lastD]
    exact ih v

theorem gb_pushList_append (a : List Nat) : ∀ (b : List Nat) (f : VarintGBFactory),
    pushList f (a ++ b) = pushList (pushList f a) b := by
  induction a with
  | nil => intro b f; rfl
  | cons v vs ih =>
    intro b f
    simp only [List.cons_append, pushList]
    exact ih b _

theorem pushList_aux (g : List Nat) : ∀ (pre P : List Nat) (D t j bicc ch n : Nat),
    g ≠ [] → 1 ≤ j → j ≤ 3 → j + g.length ≤ 4 → D < 4 ^ j →
    ∃ bicc2, pushList ⟨pre ++ D :: P, t, pre.length, j, bicc, ch, n⟩ g
      = ⟨pre ++ (D + descFrom t g j) :: (P ++ payloadFrom t g), lastD t g, pre.length,
         (j + g.length) % 4, bicc2, ch, n + g.length⟩ := by
  induction g with
  | nil =>
    intro pre P D t j bicc ch n hne
    exact absurd rfl hne
  | cons v vs ih =>
    intro pre P D t j bicc ch n _ hj1 hj3 hlen hD
    simp only [List.length_cons] at hlen
    have hw1 : 1 ≤ (encDelta (delta32 t v)).length := encDelta_length_pos _
    have hw4 : (encDelta (delta32 t v)).length ≤ 4 := encDelta_length_le _
    have hxor : D ^^^ (((encDelta (delta32 t v)).length - 1) <<< (j * 2))
        = D + ((encDelta (delta32 t v)).length - 1) * 4 ^ j :=
      xor_shift_add j (by omega) D hD ((encDelta (delta32 t v)).length - 1) (by omega)
    have hpush := push_int_mid pre P D t bicc ch n j v (by omega)
    rw [hxor] at hpush
    cases vs with
    | nil =>
      refine ⟨bicc + ((encDelta (delta32 t v)).length - 1), ?_⟩
      simp only [pushList, hpush]
      simp only [descFrom, payloadFrom, lastD, List.length_cons, List.length_nil,
        VarintGBFactory.mk.injEq, List.append_nil]
      refine ⟨?_, trivial, trivial, trivial, trivial, trivial, trivial⟩
      have harith : D + (((encDelta (delta32 t v)).length - 1) * 4 ^ j + 0)
          = D + ((encDelta (delta32 t v)).length - 1) * 4 ^ j := by omega
      rw [harith]
    | cons u us =>
      have hD2 : D + ((encDelta (delta32 t v)).length - 1) * 4 ^ j < 4 ^ (j + 1) := by
        have hmul : ((encDelta (delta32 t v)).length - 1) * 4 ^ j ≤ 3 * 4 ^ j :=
          Nat.mul_le_mul_right _ (by omega)
        have hpow : (4 : Nat) ^ (j + 1) = 4 ^ j * 4 := pow_succ 4 j
        omega
      obtain ⟨bicc2, hrec⟩ := ih pre (P ++ encDelta (delta32 t v))
        (D + ((encDelta (delta32 t v)).length - 1) * 4 ^ j) v (j + 1)
        (bicc + ((encDelta (delta32 t v)).length - 1)) ch (n + 1)
        (by simp) (by omega) (by simp only [List.length_cons] at hlen ⊢; omega)
        (by simp only [List.length_cons] at hlen ⊢; omega) hD2
      refine ⟨bicc2, ?_⟩
      simp only [pushList] at hrec
      simp only [pushList, hpush]
      rw [Nat.mod_eq_of_lt (show j + 1 < 4 by
        simp only [List.length_cons] at hlen
        omega)]
      rw [hrec]
      simp only [descFrom, payloadFrom, lastD, List.length_cons,
        VarintGBFactory.mk.injEq, List.append_assoc]
      refine ⟨?_, trivial, trivial, ?_, trivial, trivial, ?_⟩ <;>
        simp only [Nat.add_assoc, pow_zero, mul_one, Nat.zero_add] <;> try omega

theorem pushList_one_group (f : VarintGBFactory) (g : List Nat) (h0 : f.index_in_chunk = 0)
    (hne : g ≠ []) (hlen : g.length ≤ 4) :
    ∃ bicc2 ch2, pushList f g
      = ⟨f.byte_stream ++ groupBytes f.top g, lastD f.top g, f.byte_stream.length,
         g.length % 4, bicc2, ch2, f.len + g.length⟩ := by
  cases g with
  | nil => exact absurd rfl hne
  | cons v vs =>
    have hstart := push_int_start f v h0
    have hw1 : 1 ≤ (encDelta (delta32 f.top v)).length := encDelta_length_pos _
    have hw4 : (encDelta (delta32 f.top v)).length ≤ 4 := encDelta_length_le _
    cases vs with
    | nil =>
      refine ⟨(encDelta (delta32 f.top v)).length - 1, f.no_of_chunks + 1, ?_⟩
      simp only [pushList, hstart]
      simp only [groupBytes, descFrom, payloadFrom, lastD, List.length_cons, List.length_nil,
        VarintGBFactory.mk.injEq, List.append_nil]
      refine ⟨?_, trivial, trivial, trivial, trivial, trivial, trivial⟩
      have harith : ((encDelta (delta32 f.top v)).length - 1) * 4 ^ 0 + 0
          = (encDelta (delta32 f.top v)).length - 1 := by omega
      rw [harith]
    | cons u us =>
      simp only [List.length_cons] at hlen
      obtain ⟨bicc2, hrec⟩ := pushList_aux (u :: us) f.byte_stream
        (encDelta (delta32 f.top v)) ((encDelta (delta32 f.top v)).length - 1) v 1
        ((encDelta (delta32 f.top v)).length - 1) (f.no_of_chunks + 1) (f.len + 1)
        (by simp) (by omega) (by omega) (by simp; omega) (by omega)
      refine ⟨bicc2, f.no_of_chunks + 1, ?_⟩
      simp only [pushList] at hrec
      simp only [pushList, hstart]
      rw [hrec]
      simp only [groupBytes, descFrom, payloadFrom, lastD, List.length_cons,
        VarintGBFactory.mk.injEq]
      refine ⟨?_, trivial, trivial, ?_, trivial, trivial, ?_⟩ <;>
        simp only [Nat.add_assoc, pow_zero, mul_one, Nat.zero_add] <;> try omega

theorem pushList_encAll : ∀ (N : Nat) (vs : List Nat) (f : VarintGBFactory), vs.length ≤ N →
    f.index_in_chunk = 0 →
    ∃ di bicc ch, pushList f vs
      = ⟨f.byte_stream ++ gbEncAll f.top vs, lastD f.top vs, di, vs.length % 4, bicc, ch,
         f.len + vs.length⟩ := by
  intro N
  induction N with
  | zero =>
    intro vs f hlen h0
    have hnil : vs = [] := List.length_eq_zero.mp (by omega)
    subst hnil
    refine ⟨f.descriptor_index, f.bytes_in_current_chunk, f.no_of_chunks, ?_⟩
    cases f
    simp only [pushList, gbEncAll, lastD, List.append_nil, List.length_nil, Nat.zero_mod,
      Nat.add_zero]
    simp_all
  | succ N ihN =>
    intro vs f hlen h0
    cases vs with
    | nil =>
      refine ⟨f.descriptor_index, f.bytes_in_current_chunk, f.no_of_chunks, ?_⟩
      cases f
      simp only [pushList, gbEncAll, lastD, List.append_nil, List.length_nil, Nat.zero_mod,
        Nat.add_zero]
      simp_all
    | cons v rest =>
      have hsplit : v :: rest = (v :: rest).take 4 ++ (v :: rest).drop 4 :=
        (List.take_append_drop 4 (v :: rest)).symm
      have hgne : (v :: rest).take 4 ≠ [] := by simp
      have hgle : ((v :: rest).take 4).length ≤ 4 := by
        simp [List.length_take]
      obtain ⟨bicc2, ch2, hgroup⟩ := pushList_one_group f ((v :: rest).take 4) h0 hgne hgle
      cases htl : (v :: rest).drop 4 with
      | nil =>
        refine ⟨f.byte_stream.length, bicc2, ch2, ?_⟩
        have hveq : v :: rest = (v :: rest).take 4 := by
          conv_lhs => rw [hsplit]
          rw [htl, List.append_nil]
        rw [hveq, hgroup]
        have henc : gbEncAll f.top ((v :: rest).take 4)
            = groupBytes f.top (((v :: rest).take 4).take 4)
              ++ gbEncAll (lastD f.top (((v :: rest).take 4).take 4))
                (((v :: rest).take 4).drop 4) := by
          rw [← hveq]
          rw [gbEncAll]
        have htt : ((v :: rest).take 4).take 4 = (v :: rest).take 4 := by
          rw [← hveq]
          exact hveq.symm
        have htd : ((v :: rest).take 4).drop 4 = [] := by
          rw [← hveq, htl]
        rw [henc, htt, htd, gbEncAll, List.append_nil]
      | cons u us =>
        have hlr : (v :: rest).length = rest.length + 1 := by simp
        have hdlen : ((v :: rest).drop 4).length = rest.length + 1 - 4 := by
          simp [List.length_drop]
        have hbig : 4 ≤ rest.length + 1 := by
          by_contra hcon
          have : ((v :: rest).drop 4).length = 0 := by omega
          rw [htl] at this
          simp at this
        have hg4 : ((v :: rest).take 4).length = 4 := by
          simp [List.length_take]
          omega
        rw [hg4] at hgroup
        obtain ⟨di3, bicc3, ch3, hrest⟩ := ihN ((v :: rest).drop 4)
          ⟨f.byte_stream ++ groupBytes f.top ((v :: rest).take 4),
           lastD f.top ((v :: rest).take 4), f.byte_stream.length, 4 % 4, bicc2, ch2,
           f.len + 4⟩
          (by
            rw [hdlen]
            simp only [List.length_cons] at hlen
            omega)
          rfl
        refine ⟨di3, bicc3, ch3, ?_⟩
        conv_lhs => rw [hsplit]
        rw [gb_pushList_append, hgroup, hrest]
        simp only [VarintGBFactory.mk.injEq]
        refine ⟨?_, ?_, trivial, ?_, trivial, trivial, ?_⟩
        · rw [gbEncAll]
          rw [List.append_assoc]
        · rw [← lastD_append]
          rw [← hsplit]
        · simp only [List.length_cons] at hdlen ⊢
          omega
        · simp only [List.length_cons] at hdlen ⊢
          omega

theorem drop_cons_mid {α : Type} (pre rest : List α) (b : α) :
    (pre ++ b :: rest).drop (pre.length + 1) = rest := by
  induction pre with
  | nil => rfl
  | cons a pre ih =>
    simpa only [List.cons_append, List.length_cons, List.drop_succ_cons] using ih

theorem list_eq_four (l : List Nat) (h : l.length = 4) :
    l = [l.getD 0 0, l.getD 1 0, l.getD 2 0, l.getD 3 0] := by
  rcases l with _ | ⟨a, _ | ⟨b, _ | ⟨c, _ | ⟨d, _ | ⟨e, l⟩⟩⟩⟩⟩ <;> simp_all

theorem value_chunk_eq (a b c d t va vb vc vd : Nat)
    (ha : (a + t) % 2 ^ 32 = va) (hb : (b + va) % 2 ^ 32 = vb)
    (hc : (c + vb) % 2 ^ 32 = vc) (hd : (d + vc) % 2 ^ 32 = vd) :
    delta_chunk_to_value_chunk [a, b, c, d] t = [va, vb, vc, vd] := by
  simp only [delta_chunk_to_value_chunk]
  rw [ha, hb, hc, hd]

theorem next_full_group (pre suf : List Nat) (t v1 v2 v3 v4 : Nat)
    (h1 : t < v1) (h2 : v1 < v2) (h3 : v2 < v3) (h4 : v3 < v4) (hb : v4 < 2 ^ 32) :
    Iter.next DescriptorTable.new (pre ++ groupBytes t [v1, v2, v3, v4] ++ suf) ⟨pre.length, t⟩
      = some ([v1, v2, v3, v4],
          ⟨pre.length + (groupBytes t [v1, v2, v3, v4]).length, v4⟩) := by
  have hδ1 : delta32 t v1 = v1 - t := by simp only [delta32]; omega
  have hδ2 : delta32 v1 v2 = v2 - v1 := by simp only [delta32]; omega
  have hδ3 : delta32 v2 v3 = v3 - v2 := by simp only [delta32]; omega
  have hδ4 : delta32 v3 v4 = v4 - v3 := by simp only [delta32]; omega
  set E1 := encDelta (delta32 t v1) with hE1
  set E2 := encDelta (delta32 v1 v2) with hE2
  set E3 := encDelta (delta32 v2 v3) with hE3
  set E4 := encDelta (delta32 v3 v4) with hE4
  have hw1a : 1 ≤ E1.length := encDelta_length_pos _
  have hw1b : E1.length ≤ 4 := encDelta_length_le _
  have hw2a : 1 ≤ E2.length := encDelta_length_pos _
  have hw2b : E2.length ≤ 4 := encDelta_length_le _
  have hw3a : 1 ≤ E3.length := encDelta_length_pos _
  have hw3b : E3.length ≤ 4 := encDelta_length_le _
  have hw4a : 1 ≤ E4.length := encDelta_length_pos _
  have hw4b : E4.length ≤ 4 := encDelta_length_le _
  have hval1 : leValList E1 = v1 - t := by
    rw [hE1, hδ1, encDelta_leVal _ (by omega)]
  have hval2 : leValList E2 = v2 - v1 := by
    rw [hE2, hδ2, encDelta_leVal _ (by omega)]
  have hval3 : leValList E3 = v3 - v2 := by
    rw [hE3, hδ3, encDelta_leVal _ (by omega)]
  have hval4 : leValList E4 = v4 - v3 := by
    rw [hE4, hδ4, encDelta_leVal _ (by omega)]
  have hdesc : descFrom t [v1, v2, v3, v4] 0
      = (E1.length - 1) + ((E2.length - 1) * 4 + ((E3.length - 1) * 16
          + (E4.length - 1) * 64)) := by
    simp only [descFrom, ← hE1, ← hE2, ← hE3, ← hE4]
    norm_num
  have hD256 : descFrom t [v1, v2, v3, v4] 0 < 256 := by rw [hdesc]; omega
  have hL0 : descriptor_length_i (descFrom t [v1, v2, v3, v4] 0) 0 = E1.length := by
    rw [descriptor_length_i_char _ hD256 0 (by omega), hdesc]
    norm_num
    omega
  have hL1 : descriptor_length_i (descFrom t [v1, v2, v3, v4] 0) 1 = E2.length := by
    rw [descriptor_length_i_char _ hD256 1 (by omega), hdesc]
    norm_num
    omega
  have hL2 : descriptor_length_i (descFrom t [v1, v2, v3, v4] 0) 2 = E3.length := by
    rw [descriptor_length_i_char _ hD256 2 (by omega), hdesc]
    norm_num
    omega
  have hL3 : descriptor_length_i (descFrom t [v1, v2, v3, v4] 0) 3 = E4.length := by
    rw [descriptor_length_i_char _ hD256 3 (by omega), hdesc]
    norm_num
    omega
  have hs0 : sumW (descFrom t [v1, v2, v3, v4] 0) 0 0 = 0 := rfl
  have hs1 : sumW (descFrom t [v1, v2, v3, v4] 0) 0 1 = E1.length := by
    simp [sumW, hL0]
  have hs2 : sumW (descFrom t [v1, v2, v3, v4] 0) 0 2 = E1.length + E2.length := by
    simp only [sumW, Nat.zero_add]
    rw [hL0, hL1]
  have hs3 : sumW (descFrom t [v1, v2, v3, v4] 0) 0 3
      = E1.length + E2.length + E3.length := by
    simp only [sumW, Nat.zero_add]
    rw [hL0, hL1, hL2]
  have hs4 : sumW (descFrom t [v1, v2, v3, v4] 0) 0 4
      = E1.length + E2.length + E3.length + E4.length := by
    simp only [sumW, Nat.zero_add]
    rw [hL0, hL1, hL2, hL3]
  have htot : descriptor_length_total (descFrom t [v1, v2, v3, v4] 0)
      = E1.length + E2.length + E3.length + E4.length := by
    rw [descriptor_length_total_char _ hD256, hL0, hL1, hL2, hL3]
  have hshape : pre ++ groupBytes t [v1, v2, v3, v4] ++ suf
      = pre ++ descFrom t [v1, v2, v3, v4] 0
          :: (E1 ++ (E2 ++ (E3 ++ (E4 ++ suf)))) := by
    simp only [groupBytes, payloadFrom, ← hE1, ← hE2, ← hE3, ← hE4, List.append_nil,
      List.cons_append, List.append_assoc]
  have hPSlen : E1.length + E2.length + E3.length + E4.length
      ≤ (E1 ++ (E2 ++ (E3 ++ (E4 ++ suf)))).length := by
    simp only [List.length_append]
    omega
  have hslot1 : leValFrom (E1 ++ (E2 ++ (E3 ++ (E4 ++ suf)))) 0 E1.length
      = leValList E1 := by
    have h := leValFrom_mid E1 [] (E2 ++ (E3 ++ (E4 ++ suf)))
    simpa using h
  have hslot2 : leValFrom (E1 ++ (E2 ++ (E3 ++ (E4 ++ suf)))) E1.length E2.length
      = leValList E2 := by
    have h := leValFrom_mid E2 E1 (E3 ++ (E4 ++ suf))
    simpa [List.append_assoc] using h
  have hslot3 : leValFrom (E1 ++ (E2 ++ (E3 ++ (E4 ++ suf))))
      (E1.length + E2.length) E3.length = leValList E3 := by
    have h := leValFrom_mid E3 (E1 ++ E2) (E4 ++ suf)
    simpa [List.append_assoc] using h
  have hslot4 : leValFrom (E1 ++ (E2 ++ (E3 ++ (E4 ++ suf))))
      (E1.length + E2.length + E3.length) E4.length = leValList E4 := by
    have h := leValFrom_mid E4 (E1 ++ E2 ++ E3) suf
    simpa [List.append_assoc, Nat.add_assoc] using h
  have hchunkS : decode_chunk_safe_non_simd (descFrom t [v1, v2, v3, v4] 0)
      (E1 ++ (E2 ++ (E3 ++ (E4 ++ suf)))) = [v1 - t, v2 - v1, v3 - v2, v4 - v3] := by
    obtain ⟨hlen4, hget⟩ := decode_chunk_safe_char (descFrom t [v1, v2, v3, v4] 0)
      (E1 ++ (E2 ++ (E3 ++ (E4 ++ suf))))
    rw [list_eq_four _ hlen4]
    rw [hget 0 (by omega), hget 1 (by omega), hget 2 (by omega), hget 3 (by omega)]
    rw [if_pos (by rw [hs1]; omega), if_pos (by rw [hs2]; omega),
      if_pos (by rw [hs3]; omega), if_pos (by rw [hs4]; omega)]
    rw [hs0, hs1, hs2, hs3, hL0, hL1, hL2, hL3]
    rw [hslot1, hslot2, hslot3, hslot4, hval1, hval2, hval3, hval4]
  have hchunkF : decode_chunk_by_address ((E1 ++ (E2 ++ (E3 ++ (E4 ++ suf)))).take 16)
      (shuffle_sequence_from_descriptor (descFrom t [v1, v2, v3, v4] 0))
      = [v1 - t, v2 - v1, v3 - v2, v4 - v3] := by
    rw [fast_decode_char _ hD256]
    have ho0 : descOffs (descFrom t [v1, v2, v3, v4] 0) 0 = 0 := rfl
    have ho1 : descOffs (descFrom t [v1, v2, v3, v4] 0) 1 = E1.length := by
      rw [← sumW_zero_descOffs, hs1]
    have ho2 : descOffs (descFrom t [v1, v2, v3, v4] 0) 2 = E1.length + E2.length := by
      rw [← sumW_zero_descOffs, hs2]
    have ho3 : descOffs (descFrom t [v1, v2, v3, v4] 0) 3
        = E1.length + E2.length + E3.length := by
      rw [← sumW_zero_descOffs, hs3]
    rw [ho0, ho1, ho2, ho3, hL0, hL1, hL2, hL3]
    rw [hslot1, hslot2, hslot3, hslot4, hval1, hval2, hval3, hval4]
  have hvc : delta_chunk_to_value_chunk [v1 - t, v2 - v1, v3 - v2, v4 - v3] t
      = [v1, v2, v3, v4] :=
    value_chunk_eq _ _ _ _ _ _ _ _ _ (by omega) (by omega) (by omega) (by omega)
  have hglen : (groupBytes t [v1, v2, v3, v4]).length
      = 1 + (E1.length + E2.length + E3.length + E4.length) := by
    simp only [groupBytes, payloadFrom, ← hE1, ← hE2, ← hE3, ← hE4, List.append_nil,
      List.length_cons, List.length_append]
    omega
  rw [hshape]
  have hread : (pre ++ descFrom t [v1, v2, v3, v4] 0
      :: (E1 ++ (E2 ++ (E3 ++ (E4 ++ suf))))).getD pre.length 0
      = descFrom t [v1, v2, v3, v4] 0 := getD_cons_mid _ _ _ _
  have hdrop : (pre ++ descFrom t [v1, v2, v3, v4] 0
      :: (E1 ++ (E2 ++ (E3 ++ (E4 ++ suf))))).drop (pre.length + 1)
      = E1 ++ (E2 ++ (E3 ++ (E4 ++ suf))) := drop_cons_mid _ _ _
  have hguard : ¬ (pre ++ descFrom t [v1, v2, v3, v4] 0
      :: (E1 ++ (E2 ++ (E3 ++ (E4 ++ suf))))).length ≤ pre.length := by
    simp
  have hentry := get_entry_new _ hD256
  by_cases h17 : (pre ++ descFrom t [v1, v2, v3, v4] 0
      :: (E1 ++ (E2 ++ (E3 ++ (E4 ++ suf))))).length ≤ pre.length + 17
  · simp only [Iter.next, safeStep, if_neg hguard, if_pos h17]
    rw [hread, hdrop, hentry, hchunkS, hvc]
    simp only [create_entry_for_descriptor, htot, hglen, Option.some.injEq, Prod.mk.injEq,
      Iter.mk.injEq, List.getD_cons_succ, List.getD_cons_zero]
    refine ⟨trivial, by omega, trivial⟩
  · simp only [Iter.next, fastStep, if_neg hguard, if_neg h17]
    rw [hread, hdrop, hentry]
    simp only [create_entry_for_descriptor]
    rw [hchunkF, hvc]
    simp only [htot, hglen, Option.some.injEq, Prod.mk.injEq,
      Iter.mk.injEq, List.getD_cons_succ, List.getD_cons_zero]
    refine ⟨trivial, by omega, trivial⟩

theorem next_partial_one (pre : List Nat) (t v1 : Nat) (h1 : t < v1) (hb : v1 < 2 ^ 32) :
    ∃ di2, Iter.next DescriptorTable.new (pre ++ groupBytes t [v1]) ⟨pre.length, t⟩
        = some ([v1, v1, v1, v1], ⟨di2, v1⟩)
      ∧ (pre ++ groupBytes t [v1]).length ≤ di2 := by
  have hδ1 : delta32 t v1 = v1 - t := by simp only [delta32]; omega
  set E1 := encDelta (delta32 t v1) with hE1
  have hw1a : 1 ≤ E1.length := encDelta_length_pos _
  have hw1b : E1.length ≤ 4 := encDelta_length_le _
  have hval1 : leValList E1 = v1 - t := by
    rw [hE1, hδ1, encDelta_leVal _ (by omega)]
  have hdesc : descFrom t [v1] 0 = E1.length - 1 := by
    simp only [descFrom, ← hE1]
    norm_num
  have hD256 : descFrom t [v1] 0 < 256 := by rw [hdesc]; omega
  have hL0 : descriptor_length_i (descFrom t [v1] 0) 0 = E1.length := by
    rw [descriptor_length_i_char _ hD256 0 (by omega), hdesc]
    norm_num
    omega
  have hL1 : descriptor_length_i (descFrom t [v1] 0) 1 = 1 := by
    rw [descriptor_length_i_char _ hD256 1 (by omega), hdesc]
    norm_num
    omega
  have hL2 : descriptor_length_i (descFrom t [v1] 0) 2 = 1 := by
    rw [descriptor_length_i_char _ hD256 2 (by omega), hdesc]
    norm_num
    omega
  have hL3 : descriptor_length_i (descFrom t [v1] 0) 3 = 1 := by
    rw [descriptor_length_i_char _ hD256 3 (by omega), hdesc]
    norm_num
    omega
  have hs0 : sumW (descFrom t [v1] 0) 0 0 = 0 := rfl
  have hs1 : sumW (descFrom t [v1] 0) 0 1 = E1.length := by
    simp [sumW, hL0]
  have hs2 : sumW (descFrom t [v1] 0) 0 2 = E1.length + 1 := by
    simp only [sumW, Nat.zero_add]
    rw [hL0, hL1]
  have hs3 : sumW (descFrom t [v1] 0) 0 3 = E1.length + 1 + 1 := by
    simp only [sumW, Nat.zero_add]
    rw [hL0, hL1, hL2]
  have hs4 : sumW (descFrom t [v1] 0) 0 4 = E1.length + 1 + 1 + 1 := by
    simp only [sumW, Nat.zero_add]
    rw [hL0, hL1, hL2, hL3]
  have htot : descriptor_length_total (descFrom t [v1] 0) = E1.length + 3 := by
    rw [descriptor_length_total_char _ hD256, hL0, hL1, hL2, hL3]
  have hshape : pre ++ groupBytes t [v1] = pre ++ descFrom t [v1] 0 :: E1 := by
    simp only [groupBytes, payloadFrom, ← hE1, List.append_nil]
  have hslot1 : leValFrom E1 0 E1.length = leValList E1 := by
    have h := leValFrom_mid E1 [] []
    simpa using h
  have hchunkS : decode_chunk_safe_non_simd (descFrom t [v1] 0) E1
      = [v1 - t, 0, 0, 0] := by
    obtain ⟨hlen4, hget⟩ := decode_chunk_safe_char (descFrom t [v1] 0) E1
    rw [list_eq_four _ hlen4]
    rw [hget 0 (by omega), hget 1 (by omega), hget 2 (by omega), hget 3 (by omega)]
    rw [if_pos (by rw [hs1]), if_neg (by rw [hs2]; omega),
      if_neg (by rw [hs3]; omega), if_neg (by rw [hs4]; omega)]
    rw [hs0, hL0, hslot1, hval1]
  have hvc : delta_chunk_to_value_chunk [v1 - t, 0, 0, 0] t = [v1, v1, v1, v1] :=
    value_chunk_eq _ _ _ _ _ _ _ _ _ (by omega) (by omega) (by omega) (by omega)
  have hread : (pre ++ descFrom t [v1] 0 :: E1).getD pre.length 0
      = descFrom t [v1] 0 := getD_cons_mid _ _ _ _
  have hdrop : (pre ++ descFrom t [v1] 0 :: E1).drop (pre.length + 1) = E1 :=
    drop_cons_mid _ _ _
  have hguard : ¬ (pre ++ descFrom t [v1] 0 :: E1).length ≤ pre.length := by simp
  have h17 : (pre ++ descFrom t [v1] 0 :: E1).length ≤ pre.length + 17 := by
    simp only [List.length_append, List.length_cons]
    omega
  have hentry := get_entry_new _ hD256
  refine ⟨pre.length + (E1.length + 3) + 1, ?_, ?_⟩
  · rw [hshape]
    simp only [Iter.next, safeStep, if_neg hguard, if_pos h17]
    rw [hread, hdrop, hentry, hchunkS, hvc]
    simp only [create_entry_for_descriptor, htot, Option.some.injEq, Prod.mk.injEq,
      Iter.mk.injEq, List.getD_cons_succ, List.getD_cons_zero]
  · rw [hshape]
    simp only [List.length_append, List.length_cons]
    omega

theorem next_partial_two (pre : List Nat) (t v1 v2 : Nat) (h1 : t < v1) (h2 : v1 < v2)
    (hb : v2 < 2 ^ 32) :
    ∃ di2, Iter.next DescriptorTable.new (pre ++ groupBytes t [v1, v2]) ⟨pre.length, t⟩
        = some ([v1, v2, v2, v2], ⟨di2, v2⟩)
      ∧ (pre ++ groupBytes t [v1, v2]).length ≤ di2 := by
  have hδ1 : delta32 t v1 = v1 - t := by simp only [delta32]; omega
  have hδ2 : delta32 v1 v2 = v2 - v1 := by simp only [delta32]; omega
  set E1 := encDelta (delta32 t v1) with hE1
  set E2 := encDelta (delta32 v1 v2) with hE2
  have hw1a : 1 ≤ E1.length := encDelta_length_pos _
  have hw1b : E1.length ≤ 4 := encDelta_length_le _
  have hw2a : 1 ≤ E2.length := encDelta_length_pos _
  have hw2b : E2.length ≤ 4 := encDelta_length_le _
  have hval1 : leValList E1 = v1 - t := by
    rw [hE1, hδ1, encDelta_leVal _ (by omega)]
  have hval2 : leValList E2 = v2 - v1 := by
    rw [hE2, hδ2, encDelta_leVal _ (by omega)]
  have hdesc : descFrom t [v1, v2] 0 = (E1.length - 1) + (E2.length - 1) * 4 := by
    simp only [descFrom, ← hE1, ← hE2]
    norm_num
  have hD256 : descFrom t [v1, v2] 0 < 256 := by rw [hdesc]; omega
  have hL0 : descriptor_length_i (descFrom t [v1, v2] 0) 0 = E1.length := by
    rw [descriptor_length_i_char _ hD256 0 (by omega), hdesc]
    norm_num
    omega
  have hL1 : descriptor_length_i (descFrom t [v1, v2] 0) 1 = E2.length := by
    rw [descriptor_length_i_char _ hD256 1 (by omega), hdesc]
    norm_num
    omega
  have hL2 : descriptor_length_i (descFrom t [v1, v2] 0) 2 = 1 := by
    rw [descriptor_length_i_char _ hD256 2 (by omega), hdesc]
    norm_num
    omega
  have hL3 : descriptor_length_i (descFrom t [v1, v2] 0) 3 = 1 := by
    rw [descriptor_length_i_char _ hD256 3 (by omega), hdesc]
    norm_num
    omega
  have hs0 : sumW (descFrom t [v1, v2] 0) 0 0 = 0 := rfl
  have hs1 : sumW (descFrom t [v1, v2] 0) 0 1 = E1.length := by
    simp [sumW, hL0]
  have hs2 : sumW (descFrom t [v1, v2] 0) 0 2 = E1.length + E2.length := by
    simp only [sumW, Nat.zero_add]
    rw [hL0, hL1]
  have hs3 : sumW (descFrom t [v1, v2] 0) 0 3 = E1.length + E2.length + 1 := by
    simp only [sumW, Nat.zero_add]
    rw [hL0, hL1, hL2]
  have hs4 : sumW (descFrom t [v1, v2] 0) 0 4 = E1.length + E2.length + 1 + 1 := by
    simp only [sumW, Nat.zero_add]
    rw [hL0, hL1, hL2, hL3]
  have htot : descriptor_length_total (descFrom t [v1, v2] 0)
      = E1.length + E2.length + 2 := by
    rw [descriptor_length_total_char _ hD256, hL0, hL1, hL2, hL3]
  have hshape : pre ++ groupBytes t [v1, v2]
      = pre ++ descFrom t [v1, v2] 0 :: (E1 ++ E2) := by
    simp only [groupBytes, payloadFrom, ← hE1, ← hE2, List.append_nil]
  have hslot1 : leValFrom (E1 ++ E2) 0 E1.length = leValList E1 := by
    have h := leValFrom_mid E1 [] E2
    simpa using h
  have hslot2 : leValFrom (E1 ++ E2) E1.length E2.length = leValList E2 := by
    have h := leValFrom_mid E2 E1 []
    simpa using h
  have hchunkS : decode_chunk_safe_non_simd (descFrom t [v1, v2] 0) (E1 ++ E2)
      = [v1 - t, v2 - v1, 0, 0] := by
    obtain ⟨hlen4, hget⟩ := decode_chunk_safe_char (descFrom t [v1, v2] 0) (E1 ++ E2)
    rw [list_eq_four _ hlen4]
    rw [hget 0 (by omega), hget 1 (by omega), hget 2 (by omega), hget 3 (by omega)]
    rw [if_pos (by rw [hs1]; simp), if_pos (by rw [hs2]; simp),
      if_neg (by rw [hs3]; simp; try omega), if_neg (by rw [hs4]; simp; try omega)]
    rw [hs0, hs1, hL0, hL1, hslot1, hslot2, hval1, hval2]
  have hvc : delta_chunk_to_value_chunk [v1 - t, v2 - v1, 0, 0] t = [v1, v2, v2, v2] :=
    value_chunk_eq _ _ _ _ _ _ _ _ _ (by omega) (by omega) (by omega) (by omega)
  have hread : (pre ++ descFrom t [v1, v2] 0 :: (E1 ++ E2)).getD pre.length 0
      = descFrom t [v1, v2] 0 := getD_cons_mid _ _ _ _
  have hdrop : (pre ++ descFrom t [v1, v2] 0 :: (E1 ++ E2)).drop (pre.length + 1)
      = E1 ++ E2 := drop_cons_mid _ _ _
  have hguard : ¬ (pre ++ descFrom t [v1, v2] 0 :: (E1 ++ E2)).length ≤ pre.length := by
    simp
  have h17 : (pre ++ descFrom t [v1, v2] 0 :: (E1 ++ E2)).length ≤ pre.length + 17 := by
    simp only [List.length_append, List.length_cons]
    omega
  have hentry := get_entry_new _ hD256
  refine ⟨pre.length + (E1.length + E2.length + 2) + 1, ?_, ?_⟩
  · rw [hshape]
    simp only [Iter.next, safeStep, if_neg hguard, if_pos h17]
    rw [hread, hdrop, hentry, hchunkS, hvc]
    simp only [create_entry_for_descriptor, htot, Option.some.injEq, Prod.mk.injEq,
      Iter.mk.injEq, List.getD_cons_succ, List.getD_cons_zero]
  · rw [hshape]
    simp only [List.length_append, List.length_cons]
    omega

theorem next_partial_three (pre : List Nat) (t v1 v2 v3 : Nat) (h1 : t < v1) (h2 : v1 < v2)
    (h3 : v2 < v3) (hb : v3 < 2 ^ 32) :
    ∃ di2, Iter.next DescriptorTable.new (pre ++ groupBytes t [v1, v2, v3]) ⟨pre.length, t⟩
        = some ([v1, v2, v3, v3], ⟨di2, v3⟩)
      ∧ (pre ++ groupBytes t [v1, v2, v3]).length ≤ di2 := by
  have hδ1 : delta32 t v1 = v1 - t := by simp only [delta32]; omega
  have hδ2 : delta32 v1 v2 = v2 - v1 := by simp only [delta32]; omega
  have hδ3 : delta32 v2 v3 = v3 - v2 := by simp only [delta32]; omega
  set E1 := encDelta (delta32 t v1) with hE1
  set E2 := encDelta (delta32 v1 v2) with hE2
  set E3 := encDelta (delta32 v2 v3) with hE3
  have hw1a : 1 ≤ E1.length := encDelta_length_pos _
  have hw1b : E1.length ≤ 4 := encDelta_length_le _
  have hw2a : 1 ≤ E2.length := encDelta_length_pos _
  have hw2b : E2.length ≤ 4 := encDelta_length_le _
  have hw3a : 1 ≤ E3.length := encDelta_length_pos _
  have hw3b : E3.length ≤ 4 := encDelta_length_le _
  have hval1 : leValList E1 = v1 - t := by
    rw [hE1, hδ1, encDelta_leVal _ (by omega)]
  have hval2 : leValList E2 = v2 - v1 := by
    rw [hE2, hδ2, encDelta_leVal _ (by omega)]
  have hval3 : leValList E3 = v3 - v2 := by
    rw [hE3, hδ3, encDelta_leVal _ (by omega)]
  have hdesc : descFrom t [v1, v2, v3] 0
      = (E1.length - 1) + ((E2.length - 1) * 4 + (E3.length - 1) * 16) := by
    simp only [descFrom, ← hE1, ← hE2, ← hE3]
    norm_num
  have hD256 : descFrom t [v1, v2, v3] 0 < 256 := by rw [hdesc]; omega
  have hL0 : descriptor_length_i (descFrom t [v1, v2, v3] 0) 0 = E1.length := by
    rw [descriptor_length_i_char _ hD256 0 (by omega), hdesc]
    norm_num
    omega
  have hL1 : descriptor_length_i (descFrom t [v1, v2, v3] 0) 1 = E2.length := by
    rw [descriptor_length_i_char _ hD256 1 (by omega), hdesc]
    norm_num
    omega
  have hL2 : descriptor_length_i (descFrom t [v1, v2, v3] 0) 2 = E3.length := by
    rw [descriptor_length_i_char _ hD256 2 (by omega), hdesc]
    norm_num
    omega
  have hL3 : descriptor_length_i (descFrom t [v1, v2, v3] 0) 3 = 1 := by
    rw [descriptor_length_i_char _ hD256 3 (by omega), hdesc]
    norm_num
    omega
  have hs0 : sumW (descFrom t [v1, v2, v3] 0) 0 0 = 0 := rfl
  have hs1 : sumW (descFrom t [v1, v2, v3] 0) 0 1 = E1.length := by
    simp [sumW, hL0]
  have hs2 : sumW (descFrom t [v1, v2, v3] 0) 0 2 = E1.length + E2.length := by
    simp only [sumW, Nat.zero_add]
    rw [hL0, hL1]
  have hs3 : sumW (descFrom t [v1, v2, v3] 0) 0 3
      = E1.length + E2.length + E3.length := by
    simp only [sumW, Nat.zero_add]
    rw [hL0, hL1, hL2]
  have hs4 : sumW (descFrom t [v1, v2, v3] 0) 0 4
      = E1.length + E2.length + E3.length + 1 := by
    simp only [sumW, Nat.zero_add]
    rw [hL0, hL1, hL2, hL3]
  have htot : descriptor_length_total (descFrom t [v1, v2, v3] 0)
      = E1.length + E2.length + E3.length + 1 := by
    rw [descriptor_length_total_char _ hD256, hL0, hL1, hL2, hL3]
  have hshape : pre ++ groupBytes t [v1, v2, v3]
      = pre ++ descFrom t [v1, v2, v3] 0 :: (E1 ++ (E2 ++ E3)) := by
    simp only [groupBytes, payloadFrom, ← hE1, ← hE2, ← hE3, List.append_nil]
  have hslot1 : leValFrom (E1 ++ (E2 ++ E3)) 0 E1.length = leValList E1 := by
    have h := leValFrom_mid E1 [] (E2 ++ E3)
    simpa using h
  have hslot2 : leValFrom (E1 ++ (E2 ++ E3)) E1.length E2.length = leValList E2 := by
    have h := leValFrom_mid E2 E1 E3
    simpa [List.append_assoc] using h
  have hslot3 : leValFrom (E1 ++ (E2 ++ E3)) (E1.length + E2.length) E3.length
      = leValList E3 := by
    have h := leValFrom_mid E3 (E1 ++ E2) []
    simpa [List.append_assoc] using h
  have hchunkS : decode_chunk_safe_non_simd (descFrom t [v1, v2, v3] 0) (E1 ++ (E2 ++ E3))
      = [v1 - t, v2 - v1, v3 - v2, 0] := by
    obtain ⟨hlen4, hget⟩ := decode_chunk_safe_char (descFrom t [v1, v2, v3] 0)
      (E1 ++ (E2 ++ E3))
    rw [list_eq_four _ hlen4]
    rw [hget 0 (by omega), hget 1 (by omega), hget 2 (by omega), hget 3 (by omega)]
    rw [if_pos (by rw [hs1]; simp), if_pos (by rw [hs2]; simp),
      if_pos (by rw [hs3]; simp; try omega), if_neg (by rw [hs4]; simp; try omega)]
    rw [hs0, hs1, hs2, hL0, hL1, hL2, hslot1, hslot2, hslot3, hval1, hval2, hval3]
  have hvc : delta_chunk_to_value_chunk [v1 - t, v2 - v1, v3 - v2, 0] t
      = [v1, v2, v3, v3] :=
    value_chunk_eq _ _ _ _ _ _ _ _ _ (by omega) (by omega) (by omega) (by omega)
  have hread : (pre ++ descFrom t [v1, v2, v3] 0 :: (E1 ++ (E2 ++ E3))).getD pre.length 0
      = descFrom t [v1, v2, v3] 0 := getD_cons_mid _ _ _ _
  have hdrop : (pre ++ descFrom t [v1, v2, v3] 0
      :: (E1 ++ (E2 ++ E3))).drop (pre.length + 1) = E1 ++ (E2 ++ E3) :=
    drop_cons_mid _ _ _
  have hguard : ¬ (pre ++ descFrom t [v1, v2, v3] 0
      :: (E1 ++ (E2 ++ E3))).length ≤ pre.length := by
    simp
  have h17 : (pre ++ descFrom t [v1, v2, v3] 0 :: (E1 ++ (E2 ++ E3))).length
      ≤ pre.length + 17 := by
    simp only [List.length_append, List.length_cons]
    omega
  have hentry := get_entry_new _ hD256
  refine ⟨pre.length + (E1.length + E2.length + E3.length + 1) + 1, ?_, ?_⟩
  · rw [hshape]
    simp only [Iter.next, safeStep, if_neg hguard, if_pos h17]
    rw [hread, hdrop, hentry, hchunkS, hvc]
    simp only [create_entry_for_descriptor, htot, Option.some.injEq, Prod.mk.injEq,
      Iter.mk.injEq, List.getD_cons_succ, List.getD_cons_zero]
  · rw [hshape]
    simp only [List.length_append, List.length_cons]
    omega


theorem take_append_len {α : Type} (l1 : List α) : ∀ (l2 : List α) (n : Nat),
    (l1 ++ l2).take (l1.length + n) = l1 ++ l2.take n := by
  induction l1 with
  | nil => intro l2 n; simp
  | cons a l ih =>
    intro l2 n
    simp only [List.cons_append, List.length_cons]
    rw [show l.length + 1 + n = (l.length + n) + 1 by omega]
    rw [List.take_succ_cons]
    rw [ih]

theorem payloadFrom_length (g : List Nat) : ∀ t, g.length ≤ (payloadFrom t g).length := by
  induction g with
  | nil => intro t; simp [payloadFrom]
  | cons v vs ih =>
    intro t
    simp only [payloadFrom, List.length_append, List.length_cons]
    have h1 := encDelta_length_pos (delta32 t v)
    have h2 := ih v
    omega

theorem gbEncAll_length : ∀ (N : Nat) (vs : List Nat) (t : Nat), vs.length ≤ N →
    vs.length ≤ (gbEncAll t vs).length := by
  intro N
  induction N with
  | zero =>
    intro vs t hN
    have : vs = [] := List.length_eq_zero.mp (by omega)
    subst this
    simp
  | succ N ihN =>
    intro vs t hN
    cases vs with
    | nil => simp
    | cons v rest =>
      rw [gbEncAll]
      have hsplit := List.take_append_drop 4 (v :: rest)
      have hlen := congrArg List.length hsplit
      simp only [List.length_append] at hlen
      have hdlen : ((v :: rest).drop 4).length = (v :: rest).length - 4 := by
        simp [List.length_drop]
      have hrec := ihN ((v :: rest).drop 4) (lastD t ((v :: rest).take 4))
        (by simp only [List.length_drop, List.length_cons] at hN ⊢; omega)
      have hgl : ((v :: rest).take 4).length
          ≤ (groupBytes t ((v :: rest).take 4)).length := by
        simp only [groupBytes, List.length_cons]
        have := payloadFrom_length ((v :: rest).take 4) t
        omega
      simp only [List.length_append]
      omega

theorem iterChunks_encAll : ∀ (N : Nat) (vs : List Nat) (t : Nat) (pre : List Nat)
    (fuel : Nat), vs.length ≤ N → chainLt t vs = true → allLt32 vs = true → t < 2 ^ 32 →
    vs.length + 1 ≤ fuel →
    (iterChunks DescriptorTable.new (pre ++ gbEncAll t vs) fuel
      ⟨pre.length, t⟩).flatten.take vs.length = vs := by
  intro N
  induction N with
  | zero =>
    intro vs t pre fuel hN _ _ _ _
    have : vs = [] := List.length_eq_zero.mp (by omega)
    subst this
    simp
  | succ N ihN =>
    intro vs t pre fuel hN hch hall ht hf
    cases fuel with
    | zero => omega
    | succ fuel =>
    cases vs with
    | nil =>
      simp [gbEncAll, iterChunks, Iter.next]
    | cons v1 r1 =>
    cases r1 with
    | nil =>
      simp only [chainLt, allLt32, List.all_cons, List.all_nil, Bool.and_eq_true,
        decide_eq_true_eq, and_true] at hch hall
      have hbs : pre ++ gbEncAll t [v1] = pre ++ groupBytes t [v1] := by
        rw [gbEncAll]
        simp [gbEncAll]
      obtain ⟨di2, hnext, hge⟩ := next_partial_one pre t v1 hch hall
      have hnone : Iter.next DescriptorTable.new (pre ++ groupBytes t [v1]) ⟨di2, v1⟩
          = none := by
        simp only [Iter.next]
        rw [if_pos hge]
      cases fuel with
      | zero => simp only [List.length_cons] at hf; omega
      | succ fuel2 =>
        simp only [hbs, iterChunks, hnext, hnone]
        simp
    | cons v2 r2 =>
    cases r2 with
    | nil =>
      simp only [chainLt, allLt32, List.all_cons, List.all_nil, Bool.and_eq_true,
        decide_eq_true_eq, and_true] at hch hall
      have hbs : pre ++ gbEncAll t [v1, v2] = pre ++ groupBytes t [v1, v2] := by
        rw [gbEncAll]
        simp [gbEncAll]
      obtain ⟨di2, hnext, hge⟩ := next_partial_two pre t v1 v2 hch.1 hch.2 hall.2
      have hnone : Iter.next DescriptorTable.new (pre ++ groupBytes t [v1, v2]) ⟨di2, v2⟩
          = none := by
        simp only [Iter.next]
        rw [if_pos hge]
      cases fuel with
      | zero => simp only [List.length_cons] at hf; omega
      | succ fuel2 =>
        simp only [hbs, iterChunks, hnext, hnone]
        simp
    | cons v3 r3 =>
    cases r3 with
    | nil =>
      simp only [chainLt, allLt32, List.all_cons, List.all_nil, Bool.and_eq_true,
        decide_eq_true_eq, and_true] at hch hall
      have hbs : pre ++ gbEncAll t [v1, v2, v3] = pre ++ groupBytes t [v1, v2, v3] := by
        rw [gbEncAll]
        simp [gbEncAll]
      obtain ⟨di2, hnext, hge⟩ := next_partial_three pre t v1 v2 v3 hch.1 hch.2.1 hch.2.2
        hall.2.2
      have hnone : Iter.next DescriptorTable.new (pre ++ groupBytes t [v1, v2, v3])
          ⟨di2, v3⟩ = none := by
        simp only [Iter.next]
        rw [if_pos hge]
      cases fuel with
      | zero => simp only [List.length_cons] at hf; omega
      | succ fuel2 =>
        simp only [hbs, iterChunks, hnext, hnone]
        simp
    | cons v4 rest =>
      simp only [chainLt, allLt32, List.all_cons, Bool.and_eq_true,
        decide_eq_true_eq] at hch hall
      have hbs : pre ++ gbEncAll t (v1 :: v2 :: v3 :: v4 :: rest)
          = pre ++ groupBytes t [v1, v2, v3, v4] ++ gbEncAll v4 rest := by
        rw [gbEncAll]
        simp [lastD, List.append_assoc]
      have hnext := next_full_group pre (gbEncAll v4 rest) t v1 v2 v3 v4
        hch.1 hch.2.1 hch.2.2.1 hch.2.2.2.1 hall.2.2.2.1
      have hpl : pre.length + (groupBytes t [v1, v2, v3, v4]).length
          = (pre ++ groupBytes t [v1, v2, v3, v4]).length := by
        simp
      rw [hpl] at hnext
      have hrec := ihN rest v4 (pre ++ groupBytes t [v1, v2, v3, v4]) fuel
        (by simp only [List.length_cons] at hN; omega)
        (by
          have h := hch.2.2.2.2
          simpa [chainLt] using h)
        (by
          have h := hall.2.2.2.2
          simpa [allLt32] using h)
        hall.2.2.2.1
        (by simp only [List.length_cons] at hf; omega)
      simp only [hbs, iterChunks, hnext]
      simp only [List.flatten_cons]
      rw [show (v1 :: v2 :: v3 :: v4 :: rest).length
          = ([v1, v2, v3, v4] : List Nat).length + rest.length by simp; omega]
      rw [take_append_len]
      rw [hrec]
      rfl

theorem gb_roundtrip (vs : List Nat) (hch : chainLt 0 vs = true)
    (hall : allLt32 vs = true) :
    gbDecode (into_varint_gb (pushList VarintGBFactory.new vs)).1 DescriptorTable.new
      = vs := by
  obtain ⟨di, bicc, ch, hpush⟩ := pushList_encAll vs.length vs VarintGBFactory.new
    le_rfl rfl
  have hnew1 : VarintGBFactory.new.byte_stream = [] := rfl
  have hnew2 : VarintGBFactory.new.top = 0 := rfl
  have hnew3 : VarintGBFactory.new.len = 0 := rfl
  rw [hnew1, hnew2, hnew3] at hpush
  simp only [List.nil_append] at hpush
  rw [hpush]
  simp only [into_varint_gb, gbDecode]
  have hfuel : vs.length + 1 ≤ (gbEncAll 0 vs).length + 1 := by
    have h := gbEncAll_length vs.length vs 0 le_rfl
    omega
  have h := iterChunks_encAll vs.length vs 0 [] ((gbEncAll 0 vs).length + 1) le_rfl
    hch hall (by norm_num) hfuel
  simpa using h

theorem group_facts_full (suf : List Nat) (t v1 v2 v3 v4 : Nat)
    (h1 : t < v1) (h2 : v1 < v2) (h3 : v2 < v3) (h4 : v3 < v4) (hb : v4 < 2 ^ 32) :
    decode_chunk_safe_non_simd (descFrom t [v1, v2, v3, v4] 0)
        (payloadFrom t [v1, v2, v3, v4] ++ suf)
      = [v1 - t, v2 - v1, v3 - v2, v4 - v3] ∧
    decode_chunk_by_address ((payloadFrom t [v1, v2, v3, v4] ++ suf).take 16)
        (shuffle_sequence_from_descriptor (descFrom t [v1, v2, v3, v4] 0))
      = [v1 - t, v2 - v1, v3 - v2, v4 - v3] ∧
    descriptor_length_total (descFrom t [v1, v2, v3, v4] 0)
      = (payloadFrom t [v1, v2, v3, v4]).length ∧
    descFrom t [v1, v2, v3, v4] 0 < 256 := by
  have hδ1 : delta32 t v1 = v1 - t := by simp only [delta32]; omega
  have hδ2 : delta32 v1 v2 = v2 - v1 := by simp only [delta32]; omega
  have hδ3 : delta32 v2 v3 = v3 - v2 := by simp only [delta32]; omega
  have hδ4 : delta32 v3 v4 = v4 - v3 := by simp only [delta32]; omega
  set E1 := encDelta (delta32 t v1) with hE1
  set E2 := encDelta (delta32 v1 v2) with hE2
  set E3 := encDelta (delta32 v2 v3) with hE3
  set E4 := encDelta (delta32 v3 v4) with hE4
  have hw1a : 1 ≤ E1.length := encDelta_length_pos _
  have hw1b : E1.length ≤ 4 := encDelta_length_le _
  have hw2a : 1 ≤ E2.length := encDelta_length_pos _
  have hw2b : E2.length ≤ 4 := encDelta_length_le _
  have hw3a : 1 ≤ E3.length := encDelta_length_pos _
  have hw3b : E3.length ≤ 4 := encDelta_length_le _
  have hw4a : 1 ≤ E4.length := encDelta_length_pos _
  have hw4b : E4.length ≤ 4 := encDelta_length_le _
  have hval1 : leValList E1 = v1 - t := by
    rw [hE1, hδ1, encDelta_leVal _ (by omega)]
  have hval2 : leValList E2 = v2 - v1 := by
    rw [hE2, hδ2, encDelta_leVal _ (by omega)]
  have hval3 : leValList E3 = v3 - v2 := by
    rw [hE3, hδ3, encDelta_leVal _ (by omega)]
  have hval4 : leValList E4 = v4 - v3 := by
    rw [hE4, hδ4, encDelta_leVal _ (by omega)]
  have hdesc : descFrom t [v1, v2, v3, v4] 0
      = (E1.length - 1) + ((E2.length - 1) * 4 + ((E3.length - 1) * 16
          + (E4.length - 1) * 64)) := by
    simp only [descFrom, ← hE1, ← hE2, ← hE3, ← hE4]
    norm_num
  have hD256 : descFrom t [v1, v2, v3, v4] 0 < 256 := by rw [hdesc]; omega
  have hL0 : descriptor_length_i (descFrom t [v1, v2, v3, v4] 0) 0 = E1.length := by
    rw [descriptor_length_i_char _ hD256 0 (by omega), hdesc]
    norm_num
    omega
  have hL1 : descriptor_length_i (descFrom t [v1, v2, v3, v4] 0) 1 = E2.length := by
    rw [descriptor_length_i_char _ hD256 1 (by omega), hdesc]
    norm_num
    omega
  have hL2 : descriptor_length_i (descFrom t [v1, v2, v3, v4] 0) 2 = E3.length := by
    rw [descriptor_length_i_char _ hD256 2 (by omega), hdesc]
    norm_num
    omega
  have hL3 : descriptor_length_i (descFrom t [v1, v2, v3, v4] 0) 3 = E4.length := by
    rw [descriptor_length_i_char _ hD256 3 (by omega), hdesc]
    norm_num
    omega
  have hs0 : sumW (descFrom t [v1, v2, v3, v4] 0) 0 0 = 0 := rfl
  have hs1 : sumW (descFrom t [v1, v2, v3, v4] 0) 0 1 = E1.length := by
    simp [sumW, hL0]
  have hs2 : sumW (descFrom t [v1, v2, v3, v4] 0) 0 2 = E1.length + E2.length := by
    simp only [sumW, Nat.zero_add]
    rw [hL0, hL1]
  have hs3 : sumW (descFrom t [v1, v2, v3, v4] 0) 0 3
      = E1.length + E2.length + E3.length := by
    simp only [sumW, Nat.zero_add]
    rw [hL0, hL1, hL2]
  have hs4 : sumW (descFrom t [v1, v2, v3, v4] 0) 0 4
      = E1.length + E2.length + E3.length + E4.length := by
    simp only [sumW, Nat.zero_add]
    rw [hL0, hL1, hL2, hL3]
  have htot : descriptor_length_total (descFrom t [v1, v2, v3, v4] 0)
      = E1.length + E2.length + E3.length + E4.length := by
    rw [descriptor_length_total_char _ hD256, hL0, hL1, hL2, hL3]
  have hpay : payloadFrom t [v1, v2, v3, v4] ++ suf
      = E1 ++ (E2 ++ (E3 ++ (E4 ++ suf))) := by
    simp only [payloadFrom, ← hE1, ← hE2, ← hE3, ← hE4, List.append_nil,
      List.append_assoc]
  have hplen : (payloadFrom t [v1, v2, v3, v4]).length
      = E1.length + E2.length + E3.length + E4.length := by
    simp only [payloadFrom, ← hE1, ← hE2, ← hE3, ← hE4, List.append_nil,
      List.length_append]
    omega
  have hslot1 : leValFrom (E1 ++ (E2 ++ (E3 ++ (E4 ++ suf)))) 0 E1.length
      = leValList E1 := by
    have h := leValFrom_mid E1 [] (E2 ++ (E3 ++ (E4 ++ suf)))
    simpa using h
  have hslot2 : leValFrom (E1 ++ (E2 ++ (E3 ++ (E4 ++ suf)))) E1.length E2.length
      = leValList E2 := by
    have h := leValFrom_mid E2 E1 (E3 ++ (E4 ++ suf))
    simpa [List.append_assoc] using h
  have hslot3 : leValFrom (E1 ++ (E2 ++ (E3 ++ (E4 ++ suf))))
      (E1.length + E2.length) E3.length = leValList E3 := by
    have h := leValFrom_mid E3 (E1 ++ E2) (E4 ++ suf)
    simpa [List.append_assoc] using h
  have hslot4 : leValFrom (E1 ++ (E2 ++ (E3 ++ (E4 ++ suf))))
      (E1.length + E2.length + E3.length) E4.length = leValList E4 := by
    have h := leValFrom_mid E4 (E1 ++ E2 ++ E3) suf
    simpa [List.append_assoc, Nat.add_assoc] using h
  refine ⟨?_, ?_, by rw [htot, hplen], hD256⟩
  · rw [hpay]
    obtain ⟨hlen4, hget⟩ := decode_chunk_safe_char (descFrom t [v1, v2, v3, v4] 0)
      (E1 ++ (E2 ++ (E3 ++ (E4 ++ suf))))
    rw [list_eq_four _ hlen4]
    rw [hget 0 (by omega), hget 1 (by omega), hget 2 (by omega), hget 3 (by omega)]
    rw [if_pos (by rw [hs1]; simp only [List.length_append]; omega),
      if_pos (by rw [hs2]; simp only [List.length_append]; omega),
      if_pos (by rw [hs3]; simp only [List.length_append]; omega),
      if_pos (by rw [hs4]; simp only [List.length_append]; omega)]
    rw [hs0, hs1, hs2, hs3, hL0, hL1, hL2, hL3]
    rw [hslot1, hslot2, hslot3, hslot4, hval1, hval2, hval3, hval4]
  · rw [hpay]
    rw [fast_decode_char _ hD256]
    have ho0 : descOffs (descFrom t [v1, v2, v3, v4] 0) 0 = 0 := rfl
    have ho1 : descOffs (descFrom t [v1, v2, v3, v4] 0) 1 = E1.length := by
      rw [← sumW_zero_descOffs, hs1]
    have ho2 : descOffs (descFrom t [v1, v2, v3, v4] 0) 2
        = E1.length + E2.length := by
      rw [← sumW_zero_descOffs, hs2]
    have ho3 : descOffs (descFrom t [v1, v2, v3, v4] 0) 3
        = E1.length + E2.length + E3.length := by
      rw [← sumW_zero_descOffs, hs3]
    rw [ho0, ho1, ho2, ho3, hL0, hL1, hL2, hL3]
    rw [hslot1, hslot2, hslot3, hslot4, hval1, hval2, hval3, hval4]

theorem group_facts_one (t v1 : Nat) (h1 : t < v1) (hb : v1 < 2 ^ 32) :
    decode_chunk_safe_non_simd (descFrom t [v1] 0) (payloadFrom t [v1])
      = [v1 - t, 0, 0, 0] ∧
    descriptor_length_total (descFrom t [v1] 0) = (payloadFrom t [v1]).length + 3 ∧
    descFrom t [v1] 0 < 256 := by
  have hδ1 : delta32 t v1 = v1 - t := by simp only [delta32]; omega
  set E1 := encDelta (delta32 t v1) with hE1
  have hw1a : 1 ≤ E1.length := encDelta_length_pos _
  have hw1b : E1.length ≤ 4 := encDelta_length_le _
  have hval1 : leValList E1 = v1 - t := by
    rw [hE1, hδ1, encDelta_leVal _ (by omega)]
  have hdesc : descFrom t [v1] 0 = E1.length - 1 := by
    simp only [descFrom, ← hE1]
    norm_num
  have hD256 : descFrom t [v1] 0 < 256 := by rw [hdesc]; omega
  have hL0 : descriptor_length_i (descFrom t [v1] 0) 0 = E1.length := by
    rw [descriptor_length_i_char _ hD256 0 (by omega), hdesc]
    norm_num
    omega
  have hL1 : descriptor_length_i (descFrom t [v1] 0) 1 = 1 := by
    rw [descriptor_length_i_char _ hD256 1 (by omega), hdesc]
    norm_num
    omega
  have hL2 : descriptor_length_i (descFrom t [v1] 0) 2 = 1 := by
    rw [descriptor_length_i_char _ hD256 2 (by omega), hdesc]
    norm_num
    omega
  have hL3 : descriptor_length_i (descFrom t [v1] 0) 3 = 1 := by
    rw [descriptor_length_i_char _ hD256 3 (by omega), hdesc]
    norm_num
    omega
  have hs0 : sumW (descFrom t [v1] 0) 0 0 = 0 := rfl
  have hs1 : sumW (descFrom t [v1] 0) 0 1 = E1.length := by
    simp [sumW, hL0]
  have hs2 : sumW (descFrom t [v1] 0) 0 2 = E1.length + 1 := by
    simp only [sumW, Nat.zero_add]
    rw [hL0, hL1]
  have hs3 : sumW (descFrom t [v1] 0) 0 3 = E1.length + 1 + 1 := by
    simp only [sumW, Nat.zero_add]
    rw [hL0, hL1, hL2]
  have hs4 : sumW (descFrom t [v1] 0) 0 4 = E1.length + 1 + 1 + 1 := by
    simp only [sumW, Nat.zero_add]
    rw [hL0, hL1, hL2, hL3]
  have hpay : payloadFrom t [v1] = E1 := by
    simp only [payloadFrom, ← hE1, List.append_nil]
  have hslot1 : leValFrom E1 0 E1.length = leValList E1 := by
    have h := leValFrom_mid E1 [] []
    simpa using h
  refine ⟨?_, ?_, hD256⟩
  · rw [hpay]
    obtain ⟨hlen4, hget⟩ := decode_chunk_safe_char (descFrom t [v1] 0) E1
    rw [list_eq_four _ hlen4]
    rw [hget 0 (by omega), hget 1 (by omega), hget 2 (by omega), hget 3 (by omega)]
    rw [if_pos (by rw [hs1]), if_neg (by rw [hs2]; omega),
      if_neg (by rw [hs3]; omega), if_neg (by rw [hs4]; omega)]
    rw [hs0, hL0, hslot1, hval1]
  · rw [descriptor_length_total_char _ hD256, hL0, hL1, hL2, hL3, hpay]

theorem group_facts_two (t v1 v2 : Nat) (h1 : t < v1) (h2 : v1 < v2) (hb : v2 < 2 ^ 32) :
    decode_chunk_safe_non_simd (descFrom t [v1, v2] 0) (payloadFrom t [v1, v2])
      = [v1 - t, v2 - v1, 0, 0] ∧
    descriptor_length_total (descFrom t [v1, v2] 0)
      = (payloadFrom t [v1, v2]).length + 2 ∧
    descFrom t [v1, v2] 0 < 256 := by
  have hδ1 : delta32 t v1 = v1 - t := by simp only [delta32]; omega
  have hδ2 : delta32 v1 v2 = v2 - v1 := by simp only [delta32]; omega
  set E1 := encDelta (delta32 t v1) with hE1
  set E2 := encDelta (delta32 v1 v2) with hE2
  have hw1a : 1 ≤ E1.length := encDelta_length_pos _
  have hw1b : E1.length ≤ 4 := encDelta_length_le _
  have hw2a : 1 ≤ E2.length := encDelta_length_pos _
  have hw2b : E2.length ≤ 4 := encDelta_length_le _
  have hval1 : leValList E1 = v1 - t := by
    rw [hE1, hδ1, encDelta_leVal _ (by omega)]
  have hval2 : leValList E2 = v2 - v1 := by
    rw [hE2, hδ2, encDelta_leVal _ (by omega)]
  have hdesc : descFrom t [v1, v2] 0 = (E1.length - 1) + (E2.length - 1) * 4 := by
    simp only [descFrom, ← hE1, ← hE2]
    norm_num
  have hD256 : descFrom t [v1, v2] 0 < 256 := by rw [hdesc]; omega
  have hL0 : descriptor_length_i (descFrom t [v1, v2] 0) 0 = E1.length := by
    rw [descriptor_length_i_char _ hD256 0 (by omega), hdesc]
    norm_num
    omega
  have hL1 : descriptor_length_i (descFrom t [v1, v2] 0) 1 = E2.length := by
    rw [descriptor_length_i_char _ hD256 1 (by omega), hdesc]
    norm_num
    omega
  have hL2 : descriptor_length_i (descFrom t [v1, v2] 0) 2 = 1 := by
    rw [descriptor_length_i_char _ hD256 2 (by omega), hdesc]
    norm_num
    omega
  have hL3 : descriptor_length_i (descFrom t [v1, v2] 0) 3 = 1 := by
    rw [descriptor_length_i_char _ hD256 3 (by omega), hdesc]
    norm_num
    omega
  have hs0 : sumW (descFrom t [v1, v2] 0) 0 0 = 0 := rfl
  have hs1 : sumW (descFrom t [v1, v2] 0) 0 1 = E1.length := by
    simp [sumW, hL0]
  have hs2 : sumW (descFrom t [v1, v2] 0) 0 2 = E1.length + E2.length := by
    simp only [sumW, Nat.zero_add]
    rw [hL0, hL1]
  have hs3 : sumW (descFrom t [v1, v2] 0) 0 3 = E1.length + E2.length + 1 := by
    simp only [sumW, Nat.zero_add]
    rw [hL0, hL1, hL2]
  have hs4 : sumW (descFrom t [v1, v2] 0) 0 4 = E1.length + E2.length + 1 + 1 := by
    simp only [sumW, Nat.zero_add]
    rw [hL0, hL1, hL2, hL3]
  have hpay : payloadFrom t [v1, v2] = E1 ++ E2 := by
    simp only [payloadFrom, ← hE1, ← hE2, List.append_nil]
  have hslot1 : leValFrom (E1 ++ E2) 0 E1.length = leValList E1 := by
    have h := leValFrom_mid E1 [] E2
    simpa using h
  have hslot2 : leValFrom (E1 ++ E2) E1.length E2.length = leValList E2 := by
    have h := leValFrom_mid E2 E1 []
    simpa using h
  refine ⟨?_, ?_, hD256⟩
  · rw [hpay]
    obtain ⟨hlen4, hget⟩ := decode_chunk_safe_char (descFrom t [v1, v2] 0) (E1 ++ E2)
    rw [list_eq_four _ hlen4]
    rw [hget 0 (by omega), hget 1 (by omega), hget 2 (by omega), hget 3 (by omega)]
    rw [if_pos (by rw [hs1]; simp), if_pos (by rw [hs2]; simp),
      if_neg (by rw [hs3]; simp; try omega), if_neg (by rw [hs4]; simp; try omega)]
    rw [hs0, hs1, hL0, hL1, hslot1, hslot2, hval1, hval2]
  · rw [descriptor_length_total_char _ hD256, hL0, hL1, hL2, hL3, hpay]
    simp only [List.length_append]
    try omega

theorem group_facts_three (t v1 v2 v3 : Nat) (h1 : t < v1) (h2 : v1 < v2) (h3 : v2 < v3)
    (hb : v3 < 2 ^ 32) :
    decode_chunk_safe_non_simd (descFrom t [v1, v2, v3] 0) (payloadFrom t [v1, v2, v3])
      = [v1 - t, v2 - v1, v3 - v2, 0] ∧
    descriptor_length_total (descFrom t [v1, v2, v3] 0)
      = (payloadFrom t [v1, v2, v3]).length + 1 ∧
    descFrom t [v1, v2, v3] 0 < 256 := by
  have hδ1 : delta32 t v1 = v1 - t := by simp only [delta32]; omega
  have hδ2 : delta32 v1 v2 = v2 - v1 := by simp only [delta32]; omega
  have hδ3 : delta32 v2 v3 = v3 - v2 := by simp only [delta32]; omega
  set E1 := encDelta (delta32 t v1) with hE1
  set E2 := encDelta (delta32 v1 v2) with hE2
  set E3 := encDelta (delta32 v2 v3) with hE3
  have hw1a : 1 ≤ E1.length := encDelta_length_pos _
  have hw1b : E1.length ≤ 4 := encDelta_length_le _
  have hw2a : 1 ≤ E2.length := encDelta_length_pos _
  have hw2b : E2.length ≤ 4 := encDelta_length_le _
  have hw3a : 1 ≤ E3.length := encDelta_length_pos _
  have hw3b : E3.length ≤ 4 := encDelta_length_le _
  have hval1 : leValList E1 = v1 - t := by
    rw [hE1, hδ1, encDelta_leVal _ (by omega)]
  have hval2 : leValList E2 = v2 - v1 := by
    rw [hE2, hδ2, encDelta_leVal _ (by omega)]
  have hval3 : leValList E3 = v3 - v2 := by
    rw [hE3, hδ3, encDelta_leVal _ (by omega)]
  have hdesc : descFrom t [v1, v2, v3] 0
      = (E1.length - 1) + ((E2.length - 1) * 4 + (E3.length - 1) * 16) := by
    simp only [descFrom, ← hE1, ← hE2, ← hE3]
    norm_num
  have hD256 : descFrom t [v1, v2, v3] 0 < 256 := by rw [hdesc]; omega
  have hL0 : descriptor_length_i (descFrom t [v1, v2, v3] 0) 0 = E1.length := by
    rw [descriptor_length_i_char _ hD256 0 (by omega), hdesc]
    norm_num
    omega
  have hL1 : descriptor_length_i (descFrom t [v1, v2, v3] 0) 1 = E2.length := by
    rw [descriptor_length_i_char _ hD256 1 (by omega), hdesc]
    norm_num
    omega
  have hL2 : descriptor_length_i (descFrom t [v1, v2, v3] 0) 2 = E3.length := by
    rw [descriptor_length_i_char _ hD256 2 (by omega), hdesc]
    norm_num
    omega
  have hL3 : descriptor_length_i (descFrom t [v1, v2, v3] 0) 3 = 1 := by
    rw [descriptor_length_i_char _ hD256 3 (by omega), hdesc]
    norm_num
    omega
  have hs0 : sumW (descFrom t [v1, v2, v3] 0) 0 0 = 0 := rfl
  have hs1 : sumW (descFrom t [v1, v2, v3] 0) 0 1 = E1.length := by
    simp [sumW, hL0]
  have hs2 : sumW (descFrom t [v1, v2, v3] 0) 0 2 = E1.length + E2.length := by
    simp only [sumW, Nat.zero_add]
    rw [hL0, hL1]
  have hs3 : sumW (descFrom t [v1, v2, v3] 0) 0 3
      = E1.length + E2.length + E3.length := by
    simp only [sumW, Nat.zero_add]
    rw [hL0, hL1, hL2]
  have hs4 : sumW (descFrom t [v1, v2, v3] 0) 0 4
      = E1.length + E2.length + E3.length + 1 := by
    simp only [sumW, Nat.zero_add]
    rw [hL0, hL1, hL2, hL3]
  have hpay : payloadFrom t [v1, v2, v3] = E1 ++ (E2 ++ E3) := by
    simp only [payloadFrom, ← hE1, ← hE2, ← hE3, List.append_nil]
  have hslot1 : leValFrom (E1 ++ (E2 ++ E3)) 0 E1.length = leValList E1 := by
    have h := leValFrom_mid E1 [] (E2 ++ E3)
    simpa using h
  have hslot2 : leValFrom (E1 ++ (E2 ++ E3)) E1.length E2.length = leValList E2 := by
    have h := leValFrom_mid E2 E1 E3
    simpa [List.append_assoc] using h
  have hslot3 : leValFrom (E1 ++ (E2 ++ E3)) (E1.length + E2.length) E3.length
      = leValList E3 := by
    have h := leValFrom_mid E3 (E1 ++ E2) []
    simpa [List.append_assoc] using h
  refine ⟨?_, ?_, hD256⟩
  · rw [hpay]
    obtain ⟨hlen4, hget⟩ := decode_chunk_safe_char (descFrom t [v1, v2, v3] 0)
      (E1 ++ (E2 ++ E3))
    rw [list_eq_four _ hlen4]
    rw [hget 0 (by omega), hget 1 (by omega), hget 2 (by omega), hget 3 (by omega)]
    rw [if_pos (by rw [hs1]; simp), if_pos (by rw [hs2]; simp),
      if_pos (by rw [hs3]; simp; try omega), if_neg (by rw [hs4]; simp; try omega)]
    rw [hs0, hs1, hs2, hL0, hL1, hL2, hslot1, hslot2, hslot3, hval1, hval2, hval3]
  · rw [descriptor_length_total_char _ hD256, hL0, hL1, hL2, hL3, hpay]
    simp only [List.length_append]
    try omega

theorem getLastD_snoc (l : List Nat) (a : Nat) : ∀ d, (l ++ [a]).getLastD d = a := by
  induction l with
  | nil => intro d; rfl
  | cons x xs ih =>
    intro d
    rw [List.cons_append, List.getLastD_cons]
    exact ih x

theorem getLastD_append_cons (l : List Nat) (a : Nat) (l2 : List Nat) :
    ∀ d, (l ++ a :: l2).getLastD d = (a :: l2).getLastD d := by
  induction l with
  | nil => intro d; rfl
  | cons x xs ih =>
    intro d
    simp only [List.cons_append, List.getLastD_cons, ih]

theorem getLastD_one (a d : Nat) : ([a] : List Nat).getLastD d = a := rfl

theorem pushNonzero_full (out : List Nat) (t a b c d va vb vc vd : Nat)
    (hlast : out.getLastD 0 = t)
    (ha : ¬ a = 0) (hb : ¬ b = 0) (hc : ¬ c = 0) (hd : ¬ d = 0)
    (hva : (a + t) % 2 ^ 32 = va) (hvb : (b + va) % 2 ^ 32 = vb)
    (hvc : (c + vb) % 2 ^ 32 = vc) (hvd : (d + vc) % 2 ^ 32 = vd) :
    pushNonzero out [a, b, c, d] = (out ++ [va, vb, vc, vd], false) := by
  simp only [pushNonzero, if_neg ha, if_neg hb, if_neg hc, if_neg hd, hlast,
    getLastD_append_cons, List.getLastD_cons, List.getLastD_nil, hva, hvb, hvc, hvd,
    List.append_assoc, List.cons_append, List.nil_append]

theorem pushAllVals_full (out : List Nat) (t a b c d va vb vc vd : Nat)
    (hlast : out.getLastD 0 = t)
    (hva : (a + t) % 2 ^ 32 = va) (hvb : (b + va) % 2 ^ 32 = vb)
    (hvc : (c + vb) % 2 ^ 32 = vc) (hvd : (d + vc) % 2 ^ 32 = vd) :
    pushAllVals out [a, b, c, d] = out ++ [va, vb, vc, vd] := by
  simp only [pushAllVals, hlast, getLastD_append_cons, List.getLastD_cons, List.getLastD_nil,
    hva, hvb, hvc, hvd, List.append_assoc, List.cons_append, List.nil_append]

theorem pushNonzero_p1 (out : List Nat) (t a va : Nat) (hlast : out.getLastD 0 = t)
    (ha : ¬ a = 0) (hva : (a + t) % 2 ^ 32 = va) :
    pushNonzero out [a, 0, 0, 0] = (out ++ [va], true) := by
  simp only [pushNonzero, if_neg ha, hlast, hva, eq_self_iff_true, if_true]

theorem pushNonzero_p2 (out : List Nat) (t a b va vb : Nat) (hlast : out.getLastD 0 = t)
    (ha : ¬ a = 0) (hb : ¬ b = 0)
    (hva : (a + t) % 2 ^ 32 = va) (hvb : (b + va) % 2 ^ 32 = vb) :
    pushNonzero out [a, b, 0, 0] = (out ++ [va, vb], true) := by
  simp only [pushNonzero, if_neg ha, if_neg hb, hlast, getLastD_append_cons,
    List.getLastD_cons, List.getLastD_nil, hva, hvb, List.append_assoc, List.cons_append,
    List.nil_append, eq_self_iff_true, if_true]

theorem pushNonzero_p3 (out : List Nat) (t a b c va vb vc : Nat)
    (hlast : out.getLastD 0 = t)
    (ha : ¬ a = 0) (hb : ¬ b = 0) (hc : ¬ c = 0)
    (hva : (a + t) % 2 ^ 32 = va) (hvb : (b + va) % 2 ^ 32 = vb)
    (hvc : (c + vb) % 2 ^ 32 = vc) :
    pushNonzero out [a, b, c, 0] = (out ++ [va, vb, vc], true) := by
  simp only [pushNonzero, if_neg ha, if_neg hb, if_neg hc, hlast, getLastD_append_cons,
    List.getLastD_cons, List.getLastD_nil, hva, hvb, hvc, List.append_assoc,
    List.cons_append, List.nil_append, eq_self_iff_true, if_true]

theorem payloadFrom_length_le (g : List Nat) : ∀ t,
    (payloadFrom t g).length ≤ 4 * g.length := by
  induction g with
  | nil => intro t; simp [payloadFrom]
  | cons v vs ih =>
    intro t
    simp only [payloadFrom, List.length_append, List.length_cons]
    have h1 := encDelta_length_le (delta32 t v)
    have h2 := ih v
    omega

theorem gv_step_full (pre suf out : List Nat) (fuel t v1 v2 v3 v4 : Nat)
    (h1 : t < v1) (h2 : v1 < v2) (h3 : v2 < v3) (h4 : v3 < v4) (hb : v4 < 2 ^ 32)
    (hlast : out.getLastD 0 = t) :
    get_values_go DescriptorTable.new (pre ++ groupBytes t [v1, v2, v3, v4] ++ suf)
        (fuel + 1) pre.length out
      = get_values_go DescriptorTable.new (pre ++ groupBytes t [v1, v2, v3, v4] ++ suf)
        fuel (pre ++ groupBytes t [v1, v2, v3, v4]).length (out ++ [v1, v2, v3, v4]) := by
  obtain ⟨hcs, hcf, htot, hD⟩ := group_facts_full suf t v1 v2 v3 v4 h1 h2 h3 h4 hb
  have hshape : pre ++ groupBytes t [v1, v2, v3, v4] ++ suf
      = pre ++ descFrom t [v1, v2, v3, v4] 0
          :: (payloadFrom t [v1, v2, v3, v4] ++ suf) := by
    simp [groupBytes, List.append_assoc]
  have hread := getD_cons_mid pre (payloadFrom t [v1, v2, v3, v4] ++ suf)
    (descFrom t [v1, v2, v3, v4] 0) 0
  have hdrop := drop_cons_mid pre (payloadFrom t [v1, v2, v3, v4] ++ suf)
    (descFrom t [v1, v2, v3, v4] 0)
  have hguard : ¬ (pre ++ descFrom t [v1, v2, v3, v4] 0
      :: (payloadFrom t [v1, v2, v3, v4] ++ suf)).length ≤ pre.length := by
    simp
  have hentry := get_entry_new _ hD
  have hpushN := pushNonzero_full out t (v1 - t) (v2 - v1) (v3 - v2) (v4 - v3) v1 v2 v3 v4
    hlast (by omega) (by omega) (by omega) (by omega)
    (by omega) (by omega) (by omega) (by omega)
  have hpushA := pushAllVals_full out t (v1 - t) (v2 - v1) (v3 - v2) (v4 - v3) v1 v2 v3 v4
    hlast (by omega) (by omega) (by omega) (by omega)
  have hlen2 : pre.length + descriptor_length_total (descFrom t [v1, v2, v3, v4] 0) + 1
      = (pre ++ groupBytes t [v1, v2, v3, v4]).length := by
    rw [htot]
    simp only [List.length_append, groupBytes, List.length_cons]
    omega
  rw [hshape]
  by_cases h17 : (pre ++ descFrom t [v1, v2, v3, v4] 0
      :: (payloadFrom t [v1, v2, v3, v4] ++ suf)).length ≤ pre.length + 17
  · simp only [get_values_go, if_neg hguard, if_pos h17]
    rw [hread, hdrop, hentry]
    simp only [create_entry_for_descriptor]
    rw [hcs, hpushN]
    simp only [if_neg (by simp : ¬ false = true)]
    rw [hlen2]
  · simp only [get_values_go, if_neg hguard, if_neg h17]
    rw [hread, hdrop, hentry]
    simp only [create_entry_for_descriptor]
    rw [hcf, hpushA]
    rw [hlen2]

theorem gv_step_one (pre out : List Nat) (fuel t v1 : Nat)
    (h1 : t < v1) (hb : v1 < 2 ^ 32) (hlast : out.getLastD 0 = t) :
    get_values_go DescriptorTable.new (pre ++ groupBytes t [v1]) (fuel + 1)
      pre.length out = out ++ [v1] := by
  obtain ⟨hcs, htot, hD⟩ := group_facts_one t v1 h1 hb
  have hshape : pre ++ groupBytes t [v1]
      = pre ++ descFrom t [v1] 0 :: payloadFrom t [v1] := by
    simp [groupBytes]
  have hread := getD_cons_mid pre (payloadFrom t [v1]) (descFrom t [v1] 0) 0
  have hdrop := drop_cons_mid pre (payloadFrom t [v1]) (descFrom t [v1] 0)
  have hguard : ¬ (pre ++ descFrom t [v1] 0 :: payloadFrom t [v1]).length
      ≤ pre.length := by
    simp
  have hpl := payloadFrom_length_le [v1] t
  have h17 : (pre ++ descFrom t [v1] 0 :: payloadFrom t [v1]).length
      ≤ pre.length + 17 := by
    simp only [List.length_append, List.length_cons]
    simp only [List.length_cons, List.length_nil] at hpl
    omega
  have hentry := get_entry_new _ hD
  have hpushN := pushNonzero_p1 out t (v1 - t) v1 hlast (by omega) (by omega)
  rw [hshape]
  simp only [get_values_go, if_neg hguard, if_pos h17]
  rw [hread, hdrop, hentry]
  simp only [create_entry_for_descriptor]
  rw [hcs, hpushN]
  simp only [eq_self_iff_true, if_true]

theorem gv_step_two (pre out : List Nat) (fuel t v1 v2 : Nat)
    (h1 : t < v1) (h2 : v1 < v2) (hb : v2 < 2 ^ 32) (hlast : out.getLastD 0 = t) :
    get_values_go DescriptorTable.new (pre ++ groupBytes t [v1, v2]) (fuel + 1)
      pre.length out = out ++ [v1, v2] := by
  obtain ⟨hcs, htot, hD⟩ := group_facts_two t v1 v2 h1 h2 hb
  have hshape : pre ++ groupBytes t [v1, v2]
      = pre ++ descFrom t [v1, v2] 0 :: payloadFrom t [v1, v2] := by
    simp [groupBytes]
  have hread := getD_cons_mid pre (payloadFrom t [v1, v2]) (descFrom t [v1, v2] 0) 0
  have hdrop := drop_cons_mid pre (payloadFrom t [v1, v2]) (descFrom t [v1, v2] 0)
  have hguard : ¬ (pre ++ descFrom t [v1, v2] 0 :: payloadFrom t [v1, v2]).length
      ≤ pre.length := by
    simp
  have hpl := payloadFrom_length_le [v1, v2] t
  have h17 : (pre ++ descFrom t [v1, v2] 0 :: payloadFrom t [v1, v2]).length
      ≤ pre.length + 17 := by
    simp only [List.length_append, List.length_cons]
    simp only [List.length_cons, List.length_nil] at hpl
    omega
  have hentry := get_entry_new _ hD
  have hpushN := pushNonzero_p2 out t (v1 - t) (v2 - v1) v1 v2 hlast (by omega) (by omega)
    (by omega) (by omega)
  rw [hshape]
  simp only [get_values_go, if_neg hguard, if_pos h17]
  rw [hread, hdrop, hentry]
  simp only [create_entry_for_descriptor]
  rw [hcs, hpushN]
  simp only [eq_self_iff_true, if_true]

theorem gv_step_three (pre out : List Nat) (fuel t v1 v2 v3 : Nat)
    (h1 : t < v1) (h2 : v1 < v2) (h3 : v2 < v3) (hb : v3 < 2 ^ 32)
    (hlast : out.getLastD 0 = t) :
    get_values_go DescriptorTable.new (pre ++ groupBytes t [v1, v2, v3]) (fuel + 1)
      pre.length out = out ++ [v1, v2, v3] := by
  obtain ⟨hcs, htot, hD⟩ := group_facts_three t v1 v2 v3 h1 h2 h3 hb
  have hshape : pre ++ groupBytes t [v1, v2, v3]
      = pre ++ descFrom t [v1, v2, v3] 0 :: payloadFrom t [v1, v2, v3] := by
    simp [groupBytes]
  have hread := getD_cons_mid pre (payloadFrom t [v1, v2, v3])
    (descFrom t [v1, v2, v3] 0) 0
  have hdrop := drop_cons_mid pre (payloadFrom t [v1, v2, v3]) (descFrom t [v1, v2, v3] 0)
  have hguard : ¬ (pre ++ descFrom t [v1, v2, v3] 0
      :: payloadFrom t [v1, v2, v3]).length ≤ pre.length := by
    simp
  have hpl := payloadFrom_length_le [v1, v2, v3] t
  have h17 : (pre ++ descFrom t [v1, v2, v3] 0 :: payloadFrom t [v1, v2, v3]).length
      ≤ pre.length + 17 := by
    simp only [List.length_append, List.length_cons]
    simp only [List.length_cons, List.length_nil] at hpl
    omega
  have hentry := get_entry_new _ hD
  have hpushN := pushNonzero_p3 out t (v1 - t) (v2 - v1) (v3 - v2) v1 v2 v3 hlast
    (by omega) (by omega) (by omega) (by omega) (by omega) (by omega)
  rw [hshape]
  simp only [get_values_go, if_neg hguard, if_pos h17]
  rw [hread, hdrop, hentry]
  simp only [create_entry_for_descriptor]
  rw [hcs, hpushN]
  simp only [eq_self_iff_true, if_true]

theorem get_values_go_encAll : ∀ (N : Nat) (vs : List Nat) (t : Nat) (pre out : List Nat)
    (fuel : Nat), vs.length ≤ N → chainLt t vs = true → allLt32 vs = true → t < 2 ^ 32 →
    out.getLastD 0 = t → vs.length + 1 ≤ fuel →
    get_values_go DescriptorTable.new (pre ++ gbEncAll t vs) fuel pre.length out
      = out ++ vs := by
  intro N
  induction N with
  | zero =>
    intro vs t pre out fuel hN _ _ _ _ hf
    have hnil : vs = [] := List.length_eq_zero.mp (by omega)
    subst hnil
    cases fuel with
    | zero => omega
    | succ fuel => simp [gbEncAll, get_values_go]
  | succ N ihN =>
    intro vs t pre out fuel hN hch hall ht hlast hf
    cases fuel with
    | zero => omega
    | succ fuel =>
    cases vs with
    | nil => simp [gbEncAll, get_values_go]
    | cons v1 r1 =>
    cases r1 with
    | nil =>
      simp only [chainLt, allLt32, List.all_cons, List.all_nil, Bool.and_eq_true,
        decide_eq_true_eq, and_true] at hch hall
      have hbs : pre ++ gbEncAll t [v1] = pre ++ groupBytes t [v1] := by
        rw [gbEncAll]
        simp [gbEncAll]
      rw [hbs, gv_step_one pre out fuel t v1 hch hall hlast]
    | cons v2 r2 =>
    cases r2 with
    | nil =>
      simp only [chainLt, allLt32, List.all_cons, List.all_nil, Bool.and_eq_true,
        decide_eq_true_eq, and_true] at hch hall
      have hbs : pre ++ gbEncAll t [v1, v2] = pre ++ groupBytes t [v1, v2] := by
        rw [gbEncAll]
        simp [gbEncAll]
      rw [hbs, gv_step_two pre out fuel t v1 v2 hch.1 hch.2 hall.2 hlast]
    | cons v3 r3 =>
    cases r3 with
    | nil =>
      simp only [chainLt, allLt32, List.all_cons, List.all_nil, Bool.and_eq_true,
        decide_eq_true_eq, and_true] at hch hall
      have hbs : pre ++ gbEncAll t [v1, v2, v3] = pre ++ groupBytes t [v1, v2, v3] := by
        rw [gbEncAll]
        simp [gbEncAll]
      rw [hbs, gv_step_three pre out fuel t v1 v2 v3 hch.1 hch.2.1 hch.2.2 hall.2.2 hlast]
    | cons v4 rest =>
      simp only [chainLt, allLt32, List.all_cons, Bool.and_eq_true,
        decide_eq_true_eq] at hch hall
      have hbs : pre ++ gbEncAll t (v1 :: v2 :: v3 :: v4 :: rest)
          = pre ++ groupBytes t [v1, v2, v3, v4] ++ gbEncAll v4 rest := by
        rw [gbEncAll]
        simp [lastD, List.append_assoc]
      rw [hbs]
      rw [gv_step_full pre (gbEncAll v4 rest) out fuel t v1 v2 v3 v4
        hch.1 hch.2.1 hch.2.2.1 hch.2.2.2.1 hall.2.2.2.1 hlast]
      have hlast2 : (out ++ [v1, v2, v3, v4]).getLastD 0 = v4 := by
        have hsplit : out ++ [v1, v2, v3, v4] = (out ++ [v1, v2, v3]) ++ [v4] := by
          simp
        rw [hsplit, getLastD_snoc]
      have hrec := ihN rest v4 (pre ++ groupBytes t [v1, v2, v3, v4])
        (out ++ [v1, v2, v3, v4]) fuel
        (by simp only [List.length_cons] at hN; omega)
        (by
          have h := hch.2.2.2.2
          simpa [chainLt] using h)
        (by
          have h := hall.2.2.2.2
          simpa [allLt32] using h)
        hall.2.2.2.1 hlast2
        (by simp only [List.length_cons] at hf; omega)
      rw [List.append_assoc pre (groupBytes t [v1, v2, v3, v4]) (gbEncAll v4 rest)] at hrec
      rw [← List.append_assoc pre (groupBytes t [v1, v2, v3, v4]) (gbEncAll v4 rest)] at hrec
      rw [hrec]
      simp

theorem gb_get_values (vs : List Nat) (hch : chainLt 0 vs = true)
    (hall : allLt32 vs = true) :
    get_values (into_varint_gb (pushList VarintGBFactory.new vs)).1 DescriptorTable.new
      = vs := by
  obtain ⟨di, bicc, ch, hpush⟩ := pushList_encAll vs.length vs VarintGBFactory.new
    le_rfl rfl
  have hnew1 : VarintGBFactory.new.byte_stream = [] := rfl
  have hnew2 : VarintGBFactory.new.top = 0 := rfl
  rw [hnew1, hnew2] at hpush
  simp only [List.nil_append] at hpush
  rw [hpush]
  simp only [into_varint_gb, get_values]
  have hfuel : vs.length + 1 ≤ (gbEncAll 0 vs).length + 1 := by
    have h := gbEncAll_length vs.length vs 0 le_rfl
    omega
  have h := get_values_go_encAll vs.length vs 0 [] [] ((gbEncAll 0 vs).length + 1)
    le_rfl hch hall (by norm_num) rfl hfuel
  simpa using h

theorem sumW_succ_ge (d i k : Nat) : sumW d i k + 1 ≤ sumW d i (k + 1) := by
  have h := descriptor_length_i_pos d (i + k)
  show sumW d i k + 1 ≤ sumW d i k + descriptor_length_i d (i + k)
  omega

theorem sumW_mono (d i : Nat) : ∀ m k, k ≤ m → sumW d i k ≤ sumW d i m := by
  intro m
  induction m with
  | zero =>
    intro k hk
    have hz : k = 0 := by omega
    subst hz
    exact le_rfl
  | succ m ih =>
    intro k hk
    by_cases h : k = m + 1
    · subst h
      exact le_rfl
    · have h1 := ih k (by omega)
      have h2 := sumW_succ_ge d i m
      omega

theorem sumW_ge_add (d i k : Nat) : ∀ m, sumW d i k + m ≤ sumW d i (k + m) := by
  intro m
  induction m with
  | zero => simp
  | succ m ih =>
    have h := sumW_succ_ge d i (k + m)
    have e : k + (m + 1) = (k + m) + 1 := by omega
    rw [e]
    omega

theorem leValFrom_take (bs : List Nat) : ∀ (w start m : Nat), start + w ≤ m →
    leValFrom (bs.take m) start w = leValFrom bs start w := by
  intro w
  induction w with
  | zero => intro start m _; rfl
  | succ n ih =>
    intro start m h
    show (bs.take m).getD start 0 + 256 * leValFrom (bs.take m) (start + 1) n
      = bs.getD start 0 + 256 * leValFrom bs (start + 1) n
    rw [getD_take bs m start 0 (by omega), ih (start + 1) m (by omega)]

theorem decode_take_total (d : Nat) (bs : List Nat) :
    decode_chunk_safe_non_simd d bs
      = decode_chunk_safe_non_simd d (bs.take (sumW d 0 4)) := by
  obtain ⟨hl1, hg1⟩ := decode_chunk_safe_char d bs
  obtain ⟨hl2, hg2⟩ := decode_chunk_safe_char d (bs.take (sumW d 0 4))
  rw [list_eq_four _ hl1, list_eq_four _ hl2]
  have hcomp : ∀ k, k < 4 → (decode_chunk_safe_non_simd d bs).getD k 0
      = (decode_chunk_safe_non_simd d (bs.take (sumW d 0 4))).getD k 0 := by
    intro k hk
    rw [hg1 k hk, hg2 k hk]
    have hle : sumW d 0 (k + 1) ≤ sumW d 0 4 := sumW_mono d 0 4 (k + 1) (by omega)
    have hlen : (bs.take (sumW d 0 4)).length = min (sumW d 0 4) bs.length := by
      simp
    by_cases hc : sumW d 0 (k + 1) ≤ bs.length
    · rw [if_pos hc, if_pos (by omega)]
      exact (leValFrom_take bs (descriptor_length_i d k) (sumW d 0 k) (sumW d 0 4)
        (by
          have h := sumW_succ_ge d 0 k
          show sumW d 0 k + descriptor_length_i d k ≤ sumW d 0 4
          have he : sumW d 0 k + descriptor_length_i d k = sumW d 0 (k + 1) := by
            show sumW d 0 k + descriptor_length_i d k
              = sumW d 0 k + descriptor_length_i d (0 + k)
            simp
          omega)).symm
    · rw [if_neg hc, if_neg (by omega)]
  rw [hcomp 0 (by omega), hcomp 1 (by omega), hcomp 2 (by omega), hcomp 3 (by omega)]

theorem decode_safe_field_independence (k : Nat) (_hk : k < 4) (d1 d2 : Nat)
    (hagree : ∀ i, i < k → descriptor_length_i d1 i = descriptor_length_i d2 i)
    (bs : List Nat) (hlen : bs.length = sumW d1 0 k) :
    decode_chunk_safe_non_simd d1 bs = decode_chunk_safe_non_simd d2 bs := by
  have hsum : ∀ j, j ≤ k → sumW d1 0 j = sumW d2 0 j := by
    intro j
    induction j with
    | zero => intro _; rfl
    | succ j ih =>
      intro hj
      show sumW d1 0 j + descriptor_length_i d1 (0 + j)
        = sumW d2 0 j + descriptor_length_i d2 (0 + j)
      rw [ih (by omega)]
      have ha := hagree j (by omega)
      simp only [Nat.zero_add]
      rw [ha]
  obtain ⟨hl1, hg1⟩ := decode_chunk_safe_char d1 bs
  obtain ⟨hl2, hg2⟩ := decode_chunk_safe_char d2 bs
  rw [list_eq_four _ hl1, list_eq_four _ hl2]
  have hcomp : ∀ j, j < 4 → (decode_chunk_safe_non_simd d1 bs).getD j 0
      = (decode_chunk_safe_non_simd d2 bs).getD j 0 := by
    intro j hj
    rw [hg1 j hj, hg2 j hj]
    by_cases hc : j < k
    · have he1 : sumW d1 0 (j + 1) = sumW d2 0 (j + 1) := hsum (j + 1) (by omega)
      have he2 : sumW d1 0 j = sumW d2 0 j := hsum j (by omega)
      have hmem : sumW d1 0 (j + 1) ≤ bs.length := by
        rw [hlen]
        exact sumW_mono d1 0 k (j + 1) (by omega)
      rw [if_pos hmem, if_pos (by omega)]
      rw [he2, hagree j hc]
    · have hge1 : bs.length < sumW d1 0 (j + 1) := by
        rw [hlen]
        have h := sumW_ge_add d1 0 k (j + 1 - k)
        have he : k + (j + 1 - k) = j + 1 := by omega
        rw [he] at h
        omega
      have hge2 : bs.length < sumW d2 0 (j + 1) := by
        rw [hlen, hsum k le_rfl]
        have h := sumW_ge_add d2 0 k (j + 1 - k)
        have he : k + (j + 1 - k) = j + 1 := by omega
        rw [he] at h
        omega
      rw [if_neg (by omega), if_neg (by omega)]
  rw [hcomp 0 (by omega), hcomp 1 (by omega), hcomp 2 (by omega), hcomp 3 (by omega)]

theorem descriptor_length_i_shift : ∀ d < 256, ∀ i < 4,
    descriptor_length_i d i = ((d >>> (2 * i)) &&& 3) + 1 := by decide

end GB

namespace SU

theorem sortedLt_chain (vs : List Nat) : ∀ v, sortedLt (v :: vs) = true →
    chainLt v vs = true := by
  induction vs with
  | nil => intro v _; rfl
  | cons u us ih =>
    intro v h
    simp only [sortedLt, Bool.and_eq_true, decide_eq_true_eq] at h
    simp only [chainLt, Bool.and_eq_true, decide_eq_true_eq]
    exact ⟨h.1, ih u h.2⟩

/-- The per-integer encoding as the specification words it: repeat up to
`fuel` times, while the delta is at least 128 emit `128 + delta mod 128` and
continue with `delta div 128 - 1`; then emit one final byte equal to the
remaining delta.  Stated for comparison against the source-derived
`encBytes`. -/
def specPushEncoding : Nat → Nat → List Nat
  | 0, delta => [delta]
  | fuel + 1, delta =>
    if delta < 128 then [delta]
    else (128 + delta % 128) :: specPushEncoding fuel (delta / 128 - 1)

theorem encBytes_eq_spec : ∀ fuel d, d < bnd fuel →
    (pushLoop fuel d).1 ++ [(pushLoop fuel d).2 % 256] = specPushEncoding fuel d := by
  intro fuel
  induction fuel with
  | zero =>
    intro d hd
    simp only [bnd] at hd
    simp [pushLoop, specPushEncoding, Nat.mod_eq_of_lt (by omega : d < 256)]
  | succ n ih =>
    intro d hd
    by_cases h : d < 128
    · simp [pushLoop, specPushEncoding, h, Nat.mod_eq_of_lt (by omega : d < 256)]
    · have hd2 : d / 128 - 1 < bnd n := by
        simp only [bnd] at hd
        omega
      simp only [pushLoop, specPushEncoding, if_neg h]
      rw [← ih (d / 128 - 1) hd2]
      rfl

theorem su_decode_sorted (vs : List Nat) (hs : sortedLt vs = true)
    (hall : allLt32 vs = true) :
    ∃ out, suDecode (into_varint_su (pushList VarintSUFactory.new vs)).1 = some out := by
  cases vs with
  | nil => exact ⟨[], by decide⟩
  | cons v rest =>
    by_cases hv : v = 0
    · subst hv
      have hstep : pushList VarintSUFactory.new (0 :: rest)
          = pushList VarintSUFactory.new rest := by
        show pushList (push_int VarintSUFactory.new 0) rest
          = pushList VarintSUFactory.new rest
        rfl
      rw [hstep]
      refine ⟨rest, su_roundtrip rest ?_ ?_⟩
      · exact sortedLt_chain rest 0 hs
      · simp only [allLt32, List.all_cons, Bool.and_eq_true] at hall
        simpa [allLt32] using hall.2
    · refine ⟨v :: rest, su_roundtrip (v :: rest) ?_ hall⟩
      simp only [chainLt, Bool.and_eq_true, decide_eq_true_eq]
      exact ⟨by omega, sortedLt_chain rest v hs⟩

end SU

namespace SU

example : encBytes 127 = [127] := by decide
example : encBytes 128 = [128, 0] := by decide
example : (pushList VarintSUFactory.new [200, 17003]).vec = encBytes 199 ++ encBytes 16802 := by
  decide
example : suDecode (into_varint_su (pushList VarintSUFactory.new [200, 17003])).1
    = some [200, 17003] := by decide
example : suDecode (into_varint_su (pushList VarintSUFactory.new [0])).1 = some [] := by decide

end SU

namespace SU

theorem push_int_top (f : VarintSUFactory) (v : Nat) : (push_int f v).top = v := by
  by_cases h : v = f.top <;> simp [push_int, h]

theorem push_int_of_top (f : VarintSUFactory) (v : Nat) (h : f.top = v) :
    push_int f v = f := by
  simp [push_int, h]

theorem pif_of_top (f : VarintSUFactory) (v : Nat) (h : f.top = v) :
    push_if_not_on_top f v = f := by
  simp [push_if_not_on_top, h]

theorem pif_top (f : VarintSUFactory) (v : Nat) : (push_if_not_on_top f v).top = v := by
  by_cases h : v = f.top
  · simp [push_if_not_on_top, h]
  · simp [push_if_not_on_top, h, push_int_top]

end SU

namespace GB

theorem gb_push_int_top (f : VarintGBFactory) (v : Nat) : (push_int f v).top = v := rfl

theorem gb_pif_of_top (f : VarintGBFactory) (v : Nat) (h : f.top = v) :
    push_if_not_on_top f v = f := by
  simp [push_if_not_on_top, h]

theorem gb_pif_top (f : VarintGBFactory) (v : Nat) : (push_if_not_on_top f v).top = v := by
  by_cases h : f.top = v
  · simp [push_if_not_on_top, h]
  · simp [push_if_not_on_top, h, gb_push_int_top]

end GB

/-- C1 counterexample: the claim quantifies over every strictly increasing
sequence of u32 values, including the single-element sequence `[0]`; for the
SimpleUnary codec, `push_int 0` on a fresh factory hits the `int == self.top`
guard (the initial top is 0), nothing is appended, and decoding returns the
empty sequence rather than `[0]`. -/
theorem claim_C1_counterexample :
    SU.suDecode (SU.into_varint_su (SU.pushList SU.VarintSUFactory.new [0])).1 = some []
      ∧ some ([] : List Nat) ≠ some [0] :=
  ⟨by decide, by decide⟩

/-- C1 (amended): for every sequence of u32 values that is strictly increasing
starting strictly above the initial top 0 (so the first value is at least 1),
pushing the values in order into a fresh factory, finalizing, and decoding the
sealed sequence yields back exactly the original values in order, for the
SimpleUnary codec and for the GroupBinary codec independently. -/
theorem claim_C1 (vs : List Nat) (hch : chainLt 0 vs = true)
    (hall : allLt32 vs = true) :
    SU.suDecode (SU.into_varint_su (SU.pushList SU.VarintSUFactory.new vs)).1 = some vs
      ∧ GB.gbDecode (GB.into_varint_gb (GB.pushList GB.VarintGBFactory.new vs)).1
          GB.DescriptorTable.new = vs :=
  ⟨SU.su_roundtrip vs hch hall, GB.gb_roundtrip vs hch hall⟩

/-- C1 witness: the round trip at the concrete sequence `[200, 17003]`. -/
theorem claim_C1_witness :
    chainLt 0 [200, 17003] = true ∧ allLt32 [200, 17003] = true
      ∧ (SU.suDecode (SU.into_varint_su
            (SU.pushList SU.VarintSUFactory.new [200, 17003])).1 = some [200, 17003]
        ∧ GB.gbDecode (GB.into_varint_gb
            (GB.pushList GB.VarintGBFactory.new [200, 17003])).1 GB.DescriptorTable.new
          = [200, 17003]) :=
  ⟨by decide, by decide, claim_C1 [200, 17003] (by decide) (by decide)⟩

/-- C2: for every GroupBinary sealed sequence produced by pushing n strictly
increasing values and finalizing, `get_values` stops after exactly n values
(the n original values and nothing beyond them), and the unused high
descriptor fields of a final partial group are never read: the safe decoder
output on a buffer holding exactly the first k slots is identical for any two
descriptors that agree on the low k width fields. -/
theorem claim_C2 :
    (∀ vs : List Nat, chainLt 0 vs = true → allLt32 vs = true →
      GB.get_values (GB.into_varint_gb (GB.pushList GB.VarintGBFactory.new vs)).1
        GB.DescriptorTable.new = vs)
    ∧ (∀ k, k < 4 → ∀ d1 d2 : Nat,
        (∀ i, i < k → GB.descriptor_length_i d1 i = GB.descriptor_length_i d2 i) →
        ∀ bs : List Nat, bs.length = GB.sumW d1 0 k →
        GB.decode_chunk_safe_non_simd d1 bs = GB.decode_chunk_safe_non_simd d2 bs) :=
  ⟨fun vs hch hall => GB.gb_get_values vs hch hall,
   fun k hk d1 d2 ha bs hl => GB.decode_safe_field_independence k hk d1 d2 ha bs hl⟩

/-- C2 witness: `get_values` on `[3, 7, 9]` (a final partial group of three),
and field independence at width-field position 1 for descriptors 0 and 64. -/
theorem claim_C2_witness :
    chainLt 0 [3, 7, 9] = true ∧ allLt32 [3, 7, 9] = true
      ∧ GB.get_values (GB.into_varint_gb (GB.pushList GB.VarintGBFactory.new [3, 7, 9])).1
          GB.DescriptorTable.new = [3, 7, 9]
      ∧ GB.decode_chunk_safe_non_simd 0 [9] = GB.decode_chunk_safe_non_simd 64 [9] :=
  ⟨by decide, by decide, claim_C2.1 [3, 7, 9] (by decide) (by decide),
   claim_C2.2 1 (by decide) 0 64 (by decide) [9] (by decide)⟩

/-- C3: a group is decoded via the safe scalar path exactly when the
descriptor position satisfies `position + 17 ≥ buffer length`; the fast
path's unconditional 16-byte load starting right after the descriptor byte
happens only when more than 16 bytes remain after the descriptor, its window
has exactly 16 bytes, and every index it touches is inside the buffer. -/
theorem claim_C3 (table : GB.DescriptorTable) (bs : List Nat) (s : GB.Iter)
    (h : s.descriptor_index < bs.length) :
    (bs.length ≤ s.descriptor_index + 17 →
      GB.Iter.next table bs s = GB.safeStep table bs s)
    ∧ (s.descriptor_index + 17 < bs.length →
      GB.Iter.next table bs s = GB.fastStep table bs s
        ∧ s.descriptor_index + 1 + 16 ≤ bs.length
        ∧ ((bs.drop (s.descriptor_index + 1)).take 16).length = 16
        ∧ ∀ j, j < 16 → s.descriptor_index + 1 + j < bs.length) := by
  constructor
  · intro h17
    simp only [GB.Iter.next]
    rw [if_neg (by omega), if_pos h17]
  · intro h17
    refine ⟨?_, by omega, ?_, ?_⟩
    · simp only [GB.Iter.next]
      rw [if_neg (by omega), if_neg (by omega)]
    · simp only [List.length_take, List.length_drop]
      omega
    · intro j hj
      omega

/-- C3 witness: on a 20-byte buffer with the cursor at 0, the fast path is
taken and the 16-byte window is in bounds. -/
theorem claim_C3_witness :
    GB.Iter.next GB.DescriptorTable.new (List.replicate 20 0) ⟨0, 0⟩
        = GB.fastStep GB.DescriptorTable.new (List.replicate 20 0) ⟨0, 0⟩
      ∧ (0 : Nat) + 1 + 16 ≤ (List.replicate 20 (0 : Nat)).length := by
  have h := (claim_C3 GB.DescriptorTable.new (List.replicate 20 0) ⟨0, 0⟩
    (by decide)).2 (by decide)
  exact ⟨h.1, h.2.1⟩

/-- C4: for both factories, finalize moves the accumulated byte buffer into
the sealed sequence and leaves the factory's buffer empty; a second finalize
yields a sealed sequence with an empty buffer that decodes to no values (its
stored count field, however, is carried over unchanged from the factory). -/
theorem claim_C4 (f : SU.VarintSUFactory) (g : GB.VarintGBFactory) :
    (SU.into_varint_su f).1.bytes = f.vec
    ∧ (SU.into_varint_su f).1.len = f.len
    ∧ (SU.into_varint_su f).2.vec = []
    ∧ (SU.into_varint_su (SU.into_varint_su f).2).1.bytes = []
    ∧ SU.suDecode (SU.into_varint_su (SU.into_varint_su f).2).1 = some []
    ∧ (GB.into_varint_gb g).1.byte_stream = g.byte_stream
    ∧ (GB.into_varint_gb g).1.len = g.len
    ∧ (GB.into_varint_gb g).2.byte_stream = []
    ∧ (GB.into_varint_gb (GB.into_varint_gb g).2).1.byte_stream = []
    ∧ GB.gbDecode (GB.into_varint_gb (GB.into_varint_gb g).2).1 GB.DescriptorTable.new
        = [] := by
  refine ⟨rfl, rfl, rfl, rfl, rfl, rfl, rfl, rfl, rfl, ?_⟩
  exact List.take_nil

/-- C5: a SimpleUnary push of x with previous top t (with t < x) appends
exactly the encoding of delta = x - t - 1, which matches the spec's loop
(up to 4 continuation bytes `128 + delta mod 128` with
`delta := delta div 128 - 1`, then one final byte equal to the remaining
delta); the encoding occupies 1 to 5 bytes, every byte but the last has its
high bit set, and the final byte is below 128. -/
theorem claim_C5 (f : SU.VarintSUFactory) (x : Nat) (htop : f.top < x)
    (hx : x < 2 ^ 32) :
    SU.push_int f x = ⟨f.vec ++ SU.encBytes (x - f.top - 1), x, f.len + 1⟩
    ∧ SU.encBytes (x - f.top - 1) = SU.specPushEncoding 4 (x - f.top - 1)
    ∧ 1 ≤ (SU.encBytes (x - f.top - 1)).length
    ∧ (SU.encBytes (x - f.top - 1)).length ≤ 5
    ∧ (∀ b ∈ (SU.encBytes (x - f.top - 1)).dropLast, 128 ≤ b ∧ b < 256)
    ∧ (SU.encBytes (x - f.top - 1)).getLastD 0 < 128 := by
  have hd : (x + 2 ^ 32 - (f.top + 1)) % 2 ^ 32 = x - f.top - 1 := by omega
  have hdlt : x - f.top - 1 < 2 ^ 32 := by omega
  obtain ⟨h1, h2, h3, h4⟩ := SU.pushLoop_spec 4 (x - f.top - 1)
    (lt_of_lt_of_le hdlt SU.le_bnd4)
  have hmod : (SU.pushLoop 4 (x - f.top - 1)).2 % 256
      = (SU.pushLoop 4 (x - f.top - 1)).2 := Nat.mod_eq_of_lt (by omega)
  have henc : SU.encBytes (x - f.top - 1)
      = (SU.pushLoop 4 (x - f.top - 1)).1 ++ [(SU.pushLoop 4 (x - f.top - 1)).2] := by
    rw [SU.encBytes, hmod]
  refine ⟨?_, ?_, ?_, ?_, ?_, ?_⟩
  · simp only [SU.push_int, if_neg (by omega : ¬ x = f.top), hd]
  · rw [← SU.encBytes_eq_spec 4 _ (lt_of_lt_of_le hdlt SU.le_bnd4)]
    rfl
  · rw [henc]
    simp
  · rw [henc]
    simp only [List.length_append, List.length_cons, List.length_nil]
    omega
  · rw [henc]
    intro b hb
    rw [List.dropLast_concat] at hb
    exact h3 b hb
  · rw [henc, GB.getLastD_snoc]
    omega

/-- C5 witness: pushing 200 into a fresh factory. -/
theorem claim_C5_witness :
    SU.VarintSUFactory.new.top < 200 ∧ (200 : Nat) < 2 ^ 32
      ∧ SU.push_int SU.VarintSUFactory.new 200
        = ⟨SU.VarintSUFactory.new.vec ++ SU.encBytes (200 - SU.VarintSUFactory.new.top - 1),
           200, SU.VarintSUFactory.new.len + 1⟩ :=
  ⟨by decide, by decide, (claim_C5 SU.VarintSUFactory.new 200 (by decide) (by decide)).1⟩

/-- C6: for every descriptor byte value d below 256, the table entry built at
construction has total length equal to the sum over the four slots of
`((d >>> (2*i)) &&& 3) + 1`, and a 16-entry shuffle mask that assigns, within
each slot's 4-byte output lane, consecutive source byte indices (starting at
the sum of the earlier slot widths) to the positions below the slot width and
the produce-zero sentinel -1 to the remaining padding positions. -/
theorem claim_C6 (d : Nat) (hd : d < 256) :
    (GB.get_entry_for_descriptor GB.DescriptorTable.new d).length
        = (((d >>> (2 * 0)) &&& 3) + 1) + (((d >>> (2 * 1)) &&& 3) + 1)
          + (((d >>> (2 * 2)) &&& 3) + 1) + (((d >>> (2 * 3)) &&& 3) + 1)
    ∧ (GB.get_entry_for_descriptor GB.DescriptorTable.new d).shuffle_sequence.length = 16
    ∧ ∀ s, s < 4 → ∀ n, n < 4 →
        (GB.get_entry_for_descriptor GB.DescriptorTable.new d).shuffle_sequence.getD
            (4 * s + n) 0
          = if n < ((d >>> (2 * s)) &&& 3) + 1
            then ((GB.descOffs d s + n : Nat) : Int) else -1 := by
  rw [GB.get_entry_new d hd]
  refine ⟨?_, GB.shuffle_length d hd, ?_⟩
  · show GB.descriptor_length_total d = _
    rw [GB.descriptor_length_total_char d hd,
      GB.descriptor_length_i_shift d hd 0 (by omega),
      GB.descriptor_length_i_shift d hd 1 (by omega),
      GB.descriptor_length_i_shift d hd 2 (by omega),
      GB.descriptor_length_i_shift d hd 3 (by omega)]
  · intro s hs n hn
    show (GB.shuffle_sequence_from_descriptor d).getD (4 * s + n) 0 = _
    rw [GB.shuffle_char d hd s hs n hn, GB.descriptor_length_i_shift d hd s hs]

/-- C6 witness: the table entry for descriptor 27 (widths 4,3,2,1). -/
theorem claim_C6_witness :
    (GB.get_entry_for_descriptor GB.DescriptorTable.new 27).length
        = (((27 >>> (2 * 0)) &&& 3) + 1) + (((27 >>> (2 * 1)) &&& 3) + 1)
          + (((27 >>> (2 * 2)) &&& 3) + 1) + (((27 >>> (2 * 3)) &&& 3) + 1)
      ∧ (GB.get_entry_for_descriptor GB.DescriptorTable.new 27).shuffle_sequence.getD
            (4 * 2 + 1) 0
          = if 1 < ((27 >>> (2 * 2)) &&& 3) + 1
            then ((GB.descOffs 27 2 + 1 : Nat) : Int) else -1 :=
  ⟨(claim_C6 27 (by decide)).1, (claim_C6 27 (by decide)).2.2 2 (by decide) 1 (by decide)⟩

/-- C7: width boundaries: under SimpleUnary a delta of 127 encodes in 1 byte
and 128 in 2 bytes; under GroupBinary a delta of 0 encodes in 1 byte and a
delta of 2^24 in exactly 4 bytes with its width field equal to 3 (the group
starting with that delta gets descriptor byte 3 followed by the four little
endian bytes of 2^24). -/
theorem claim_C7 :
    (SU.encBytes 127).length = 1 ∧ (SU.encBytes 128).length = 2
    ∧ (GB.encDelta 0).length = 1 ∧ (GB.encDelta (2 ^ 24)).length = 4
    ∧ (GB.encDelta (2 ^ 24)).length - 1 = 3
    ∧ (GB.pushList GB.VarintGBFactory.new [2 ^ 24]).byte_stream = [3, 0, 0, 0, 1] := by
  decide

/-- C8: pushing a value equal to the current top is a no-op: after a push of
v, pushing v again (directly for SimpleUnary `push_int`, or through the
dedup-aware push of either codec) leaves the factory, and hence the sealed
sequence and its count, unchanged. -/
theorem claim_C8 (f : SU.VarintSUFactory) (g : GB.VarintGBFactory) (v : Nat) :
    SU.push_int (SU.push_int f v) v = SU.push_int f v
    ∧ SU.push_if_not_on_top (SU.push_int f v) v = SU.push_int f v
    ∧ GB.push_if_not_on_top (GB.push_int g v) v = GB.push_int g v
    ∧ SU.push_if_not_on_top (SU.push_if_not_on_top f v) v = SU.push_if_not_on_top f v
    ∧ GB.push_if_not_on_top (GB.push_if_not_on_top g v) v = GB.push_if_not_on_top g v
    ∧ (SU.into_varint_su (SU.push_if_not_on_top (SU.push_int f v) v)).1
        = (SU.into_varint_su (SU.push_int f v)).1
    ∧ (GB.into_varint_gb (GB.push_if_not_on_top (GB.push_int g v) v)).1
        = (GB.into_varint_gb (GB.push_int g v)).1 := by
  refine ⟨?_, ?_, ?_, ?_, ?_, ?_, ?_⟩
  · exact SU.push_int_of_top (SU.push_int f v) v (SU.push_int_top f v)
  · exact SU.pif_of_top (SU.push_int f v) v (SU.push_int_top f v)
  · exact GB.gb_pif_of_top (GB.push_int g v) v (GB.gb_push_int_top g v)
  · exact SU.pif_of_top (SU.push_if_not_on_top f v) v (SU.pif_top f v)
  · exact GB.gb_pif_of_top (GB.push_if_not_on_top g v) v (GB.gb_pif_top g v)
  · rw [SU.pif_of_top (SU.push_int f v) v (SU.push_int_top f v)]
  · rw [GB.gb_pif_of_top (GB.push_int g v) v (GB.gb_push_int_top g v)]

/-- C9: for every descriptor byte and every byte slice, the safe scalar group
decoder returns a 4-slot chunk where slot k holds the little-endian value of
its `descriptor_length_i` bytes when they all fit in the slice and 0 when the
slice is exhausted before slot k is fully read; it never looks past the total
descriptor length (decoding the truncated slice gives the same chunk), and no
error is signaled for a short read. -/
theorem claim_C9 (d : Nat) (bs : List Nat) :
    (GB.decode_chunk_safe_non_simd d bs).length = 4
    ∧ (∀ k, k < 4 → (GB.decode_chunk_safe_non_simd d bs).getD k 0
        = if GB.sumW d 0 (k + 1) ≤ bs.length
          then GB.leValFrom bs (GB.sumW d 0 k) (GB.descriptor_length_i d k)
          else 0)
    ∧ GB.decode_chunk_safe_non_simd d bs
        = GB.decode_chunk_safe_non_simd d (bs.take (GB.sumW d 0 4)) :=
  ⟨(GB.decode_chunk_safe_char d bs).1, (GB.decode_chunk_safe_char d bs).2,
    GB.decode_take_total d bs⟩

/-- C9 witness: descriptor 6 (widths 3,2,1,1) on the 2-byte slice `[5, 7]`. -/
theorem claim_C9_witness :
    (GB.decode_chunk_safe_non_simd 6 [5, 7]).length = 4
    ∧ (GB.decode_chunk_safe_non_simd 6 [5, 7]).getD 0 0
        = (if GB.sumW 6 0 1 ≤ ([5, 7] : List Nat).length
          then GB.leValFrom [5, 7] (GB.sumW 6 0 0) (GB.descriptor_length_i 6 0)
          else 0)
    ∧ GB.decode_chunk_safe_non_simd 6 [5, 7]
        = GB.decode_chunk_safe_non_simd 6 (([5, 7] : List Nat).take (GB.sumW 6 0 4)) := by
  have h := claim_C9 6 [5, 7]
  exact ⟨h.1, h.2.1 0 (by decide), h.2.2⟩

/-- C10: for any u32 delta the SimpleUnary push loop leaves a remainder below
128 after at most 4 continuation bytes, so each emitted encoding is 1 to 5
bytes ending in a final byte below 128; consequently, for every strictly
increasing sequence pushed into the factory, the iterator decodes the whole
buffer without its unchecked inner reads ever running past the end (decoding
returns `some` rather than the panic marker `none`). -/
theorem claim_C10 :
    (∀ d, d < 2 ^ 32 →
      (SU.pushLoop 4 d).2 < 128
      ∧ 1 ≤ (SU.encBytes d).length ∧ (SU.encBytes d).length ≤ 5
      ∧ (SU.encBytes d).getLastD 0 < 128)
    ∧ (∀ vs : List Nat, sortedLt vs = true → allLt32 vs = true →
      ∃ out, SU.suDecode (SU.into_varint_su (SU.pushList SU.VarintSUFactory.new vs)).1
        = some out) := by
  constructor
  · intro d hd
    obtain ⟨h1, h2, h3, h4⟩ := SU.pushLoop_spec 4 d (lt_of_lt_of_le hd SU.le_bnd4)
    have hmod : (SU.pushLoop 4 d).2 % 256 = (SU.pushLoop 4 d).2 :=
      Nat.mod_eq_of_lt (by omega)
    have henc : SU.encBytes d = (SU.pushLoop 4 d).1 ++ [(SU.pushLoop 4 d).2] := by
      rw [SU.encBytes, hmod]
    refine ⟨h1, ?_, ?_, ?_⟩
    · rw [henc]
      simp
    · rw [henc]
      simp only [List.length_append, List.length_cons, List.length_nil]
      omega
    · rw [henc, GB.getLastD_snoc]
      omega
  · exact SU.su_decode_sorted

/-- C10 witness: the loop remainder at delta 127, and a full decode of the
buffer for the strictly increasing sequence `[0, 1]` (whose leading 0 is
silently dropped by the encoder but leaves the buffer well formed). -/
theorem claim_C10_witness :
    (127 : Nat) < 2 ^ 32 ∧ (SU.pushLoop 4 127).2 < 128
      ∧ sortedLt [0, 1] = true ∧ allLt32 [0, 1] = true
      ∧ ∃ out, SU.suDecode (SU.into_varint_su
          (SU.pushList SU.VarintSUFactory.new [0, 1])).1 = some out :=
  ⟨by decide, (claim_C10.1 127 (by decide)).1, by decide, by decide,
   claim_C10.2 [0, 1] (by decide) (by decide)⟩
